import Mathlib

/-!
Verification of the wordlelab repository's core algorithms: the Wordle-style
feedback ("pattern") computation, the candidate-set partitioner, and the exact
expectimax solvers of the various near-duplicate scripts
(`src/main.js`, `src/dp_solver_2.js`, `src/unnamed/part_000`,
`src/unnamed/part_001`).

Words and feedback codes are embedded as lists of characters (the JS code works
on 5-letter lowercase strings and on strings over the digits 0/1/2).
Probabilities and expected step counts are embedded as rationals; the JS code
uses IEEE doubles, but on the inputs considered here every quantity is a dyadic
rational that doubles represent exactly, so the recurrence structure is
preserved faithfully.  JS `Map` iteration order (insertion order) is modelled
by first-encounter key lists and by association lists.
-/

set_option maxHeartbeats 1000000

namespace WordleLab

/-- Words are lists of characters, mirroring the JS strings. -/
abbrev Word := List Char

/-- A feedback code is a list over the characters 0/1/2, as in the JS code. -/
abbrev Pat := List Char

/-- The all-correct feedback code, the string `22222` of the JS sources. -/
def allC : Pat := ['2', '2', '2', '2', '2']

/-- Increment the tally of one letter (JS `cnt[c] = (cnt[c] || 0) + 1`). -/
def bump (f : Char → ℕ) (c : Char) : Char → ℕ :=
  fun x => if x = c then f x + 1 else f x

/-- Decrement the tally of one letter (JS `cnt[ch]--`). -/
def dec1 (f : Char → ℕ) (c : Char) : Char → ℕ :=
  fun x => if x = c then f x - 1 else f x

/-- First pass of `pattern` in `src/main.js` (lines 674-683): walk the two
words in lockstep and tally every secret letter standing at a non-green
position.  Greens themselves leave the tally untouched. -/
def cntPass : Word → Word → (Char → ℕ) → Char → ℕ
  | g :: gs, a :: as, f => cntPass gs as (if a = g then f else bump f a)
  | _, _, f => f

/-- Second pass of `pattern` in `src/main.js` (lines 684-692): greens become
`2`; a non-green guess letter becomes `1` while its tally is positive
(consuming one unit), else `0`. -/
def pass2cnt : Word → Word → (Char → ℕ) → Pat
  | g :: gs, a :: as, f =>
    if a = g then '2' :: pass2cnt gs as f
    else if 0 < f g then '1' :: pass2cnt gs as (dec1 f g)
    else '0' :: pass2cnt gs as f
  | _, _, _ => []

/-- The count-based feedback computation `pattern(guess, answer)` of
`src/main.js` (lines 673-693). -/
def pattern (g a : Word) : Pat := pass2cnt g a (cntPass g a fun _ => 0)

/-- First pass of the used-array feedback computations: `used[i]` is true
exactly at the green positions (`patternOf` of `src/dp_solver_2.js`,
lines 57-63). -/
def usedInit : Word → Word → List Bool
  | g :: gs, a :: as => decide (g = a) :: usedInit gs as
  | _, _ => []

/-- The inner scan of the used-array second pass: index of the first secret
position that is not yet used and carries the wanted letter
(`src/dp_solver_2.js` lines 69-74). -/
def findFree : Word → List Bool → Char → Option ℕ
  | x :: xs, u :: us, c =>
    if u = false ∧ x = c then some 0
    else (findFree xs us c).map (· + 1)
  | _, _, _ => none

/-- Second pass of the used-array feedback computations: each non-green guess
letter claims the first free matching secret position, if any
(`src/dp_solver_2.js` lines 66-76). -/
def pass2used : List (Char × Char) → Word → List Bool → Pat
  | [], _, _ => []
  | (gc, ac) :: rest, a, used =>
    if ac = gc then '2' :: pass2used rest a used
    else
      match findFree a used gc with
      | some j => '1' :: pass2used rest a (used.set j true)
      | none => '0' :: pass2used rest a used

/-- The used-array feedback computation `patternOf(guess, answer)` of
`src/dp_solver_2.js` (lines 51-78). -/
def patternOf (g a : Word) : Pat := pass2used (List.zip g a) a (usedInit g a)

/-- The used-array feedback computation `patternFor(g, a)` of
`src/unnamed/part_000` (lines 79-105); it is letter-for-letter the same
two-pass algorithm as `patternOf` of `src/dp_solver_2.js`. -/
def patternFor000 (g a : Word) : Pat := pass2used (List.zip g a) a (usedInit g a)

/-- The count-based feedback computation `patternFor(guess, answer)` of
`src/unnamed/part_001` (lines 88-122): greens first, then per-letter counts of
the not-yet-used secret letters, then the left-to-right yellow pass consuming
counts — the same two passes as `pattern` of `src/main.js`. -/
def patternFor001 (g a : Word) : Pat := pass2cnt g a (cntPass g a fun _ => 0)

/-- Proof-side view of the used-array state: the secret letters standing at
the positions not yet used, in position order. -/
def availOf : Word → List Bool → Word
  | x :: xs, u :: us => if u then availOf xs us else x :: availOf xs us
  | _, _ => []

/-- Proof-side second pass working directly on the multiset (ordered list) of
still-available secret letters; both source algorithms reduce to it. -/
def pass2avail : List (Char × Char) → Word → Pat
  | [], _ => []
  | (gc, ac) :: rest, av =>
    if ac = gc then '2' :: pass2avail rest av
    else if gc ∈ av then '1' :: pass2avail rest (av.erase gc)
    else '0' :: pass2avail rest av

/-- Number of guess positions carrying letter `c` that the feedback marked
present-elsewhere (`1`); the first components are the feedback code, the
second components the guess letters. -/
def markYellow : List (Char × Char) → Char → ℕ
  | [], _ => 0
  | (r, gc) :: rest, c => (if r = '1' ∧ gc = c then 1 else 0) + markYellow rest c

/-- Number of occurrences of letter `c` in the secret that were not matched
as correct (green) by the guess. -/
def countUnmatched : Word → Word → Char → ℕ
  | g :: gs, a :: as, c =>
    (if a = c ∧ ¬a = g then 1 else 0) + countUnmatched gs as c
  | _, _, _ => 0

/-- Fuelled core of `dedupFirst`; the fuel only serves structural recursion
and any fuel at least the list length gives the same result. -/
def dedupFirstAux {κ : Type} [DecidableEq κ] : ℕ → List κ → List κ
  | 0, _ => []
  | _ + 1, [] => []
  | n + 1, k :: ks => k :: dedupFirstAux n (ks.filter fun x => decide (¬x = k))

/-- First-encounter deduplication: the key order of a JS `Map` that is filled
by appending, as in every `partition` loop of the sources. -/
def dedupFirst {κ : Type} [DecidableEq κ] (l : List κ) : List κ :=
  dedupFirstAux l.length l

/-- The feedback codes that occur in a candidate list, in first-encounter
order: the key set of the bucket `Map` built by `partitionByPattern`
(`src/main.js` lines 694-706) and `partitionState` (`src/dp_solver_2.js`
lines 99-112). -/
def keysOf {α κ : Type} [DecidableEq κ] (f : α → κ) (S : List α) : List κ :=
  dedupFirst (S.map f)

/-- The bucket of one feedback code: the elements of `S` whose code for the
current guess equals `k`, in `S` order — exactly the array appended to under
that `Map` key. -/
def bucketOf {α κ : Type} [DecidableEq κ] (f : α → κ) (S : List α) (k : κ) :
    List α :=
  S.filter fun x => decide (f x = k)

/-- A pattern table row access: `PAT[g][a]` resp. `patternMatrix[g][a]` of the
solver scripts, abstracted as a function of the two word indices. -/
abbrev PatFn := ℕ → ℕ → Pat

/-- Branch-and-bound test of `src/main.js` (line 1763: `expectedSub + 1 >=
bestE`), also used by `solveTail` of `src/unnamed/part_000` (line 266) and the
dp_top200 `solveState` of `src/unnamed/part_001` (line 882). -/
def pruneMain (best : Option ℚ) (acc : ℚ) : Bool :=
  match best with
  | none => false
  | some b => decide (b ≤ acc + 1)

/-- Branch-and-bound test of `src/dp_solver_2.js` (line 199: `expected >=
bestValue`); there the accumulator already carries the per-bucket `1 + …`. -/
def pruneDp2 (best : Option ℚ) (acc : ℚ) : Bool :=
  match best with
  | none => false
  | some b => decide (b ≤ acc)

/-- The `totalE < bestE` update guard, with `bestE = Infinity` as `none`. -/
def ltBest (best : Option ℚ) (t : ℚ) : Bool :=
  match best with
  | none => true
  | some b => decide (t < b)

/-- Bucket loop of `solveState` in `src/main.js` (lines 1754-1767): every
bucket is recursed into, the running sum is pruned against the current best. -/
def goMain (rec : List ℕ → ℚ) (f : ℕ → Pat) (S : List ℕ) (best : Option ℚ) :
    List Pat → ℚ → Option ℚ
  | [], acc => some acc
  | k :: ks, acc =>
    let acc2 :=
      acc + ((bucketOf f S k).length : ℚ) / (S.length : ℚ) * rec (bucketOf f S k)
    if pruneMain best acc2 then none else goMain rec f S best ks acc2

/-- Guess loop of `solveState` in `src/main.js` (lines 1735-1773): guesses are
drawn from `S` itself (hard mode); a pruned guess leaves the best untouched. -/
def guessesMain (rec : List ℕ → ℚ) (pat : PatFn) (S : List ℕ) :
    List ℕ → Option ℚ → Option ℚ
  | [], best => best
  | g :: gs, best =>
    match goMain rec (pat g) S best (keysOf (pat g) S) 0 with
    | none => guessesMain rec pat S gs best
    | some e =>
      if ltBest best (1 + e) then guessesMain rec pat S gs (some (1 + e))
      else guessesMain rec pat S gs best

/-- Fuelled value function of `solveState` in `src/main.js` (lines 1707-1780).
The memo cache of the script only avoids recomputation of this pure value, so
it is not part of the value-level embedding.  Fuel stands in for the call
stack; every run below uses enough fuel for the recursion to bottom out. -/
def solveStateMainF (pat : PatFn) : ℕ → List ℕ → ℚ
  | 0, _ => 0
  | fuel + 1, S =>
    if S.length = 0 then 0
    else if S.length = 1 then 1
    else (guessesMain (solveStateMainF pat fuel) pat S S none).getD 0

/-- Value of `solveState` in `src/main.js` on a candidate list. -/
def solveStateMain (pat : PatFn) (S : List ℕ) : ℚ :=
  solveStateMainF pat (S.length + 1) S

/-- Value of `solveTail` in `src/unnamed/part_000` (lines 221-279) when the
memo is ignored: its recursion (all buckets recursed, prune at
`1 + expectedTail >= bestE`) is the one of `solveState` in `src/main.js`. -/
def solveTailPure (pat : PatFn) (S : List ℕ) : ℚ :=
  solveStateMainF pat (S.length + 1) S

/-- Specification-side full bucket sum (no pruning): the probability-weighted
sum of the recursive values over all buckets of one guess. -/
def sumB (rec : List ℕ → ℚ) (f : ℕ → Pat) (S : List ℕ) (ks : List Pat) : ℚ :=
  (ks.map fun k =>
    ((bucketOf f S k).length : ℚ) / (S.length : ℚ) * rec (bucketOf f S k)).sum

/-- Specification-side guess loop without branch-and-bound: every guess gets
its full bucket sum, the minimum is kept (first wins on ties). -/
def guessesMainNP (rec : List ℕ → ℚ) (pat : PatFn) (S : List ℕ) :
    List ℕ → Option ℚ → Option ℚ
  | [], best => best
  | g :: gs, best =>
    let t := 1 + sumB rec (pat g) S (keysOf (pat g) S)
    if ltBest best t then guessesMainNP rec pat S gs (some t)
    else guessesMainNP rec pat S gs best

/-- Specification-side unpruned variant of `solveState` of `src/main.js`. -/
def solveStateMainNPF (pat : PatFn) : ℕ → List ℕ → ℚ
  | 0, _ => 0
  | fuel + 1, S =>
    if S.length = 0 then 0
    else if S.length = 1 then 1
    else (guessesMainNP (solveStateMainNPF pat fuel) pat S S none).getD 0

/-- Bucket loop of `solveState` in `src/dp_solver_2.js` (lines 186-202): the
all-correct bucket contributes `p·1`, every other bucket `p·(1 + value)`; the
running sum (which already includes the `1`s) is pruned against the best. -/
def goDp2 (rec : List ℕ → ℚ) (f : ℕ → Pat) (S : List ℕ) (best : Option ℚ) :
    List Pat → ℚ → Option ℚ
  | [], acc => some acc
  | k :: ks, acc =>
    let acc2 :=
      acc + (if k = allC
        then ((bucketOf f S k).length : ℚ) / (S.length : ℚ) * 1
        else ((bucketOf f S k).length : ℚ) / (S.length : ℚ) * (1 + rec (bucketOf f S k)))
    if pruneDp2 best acc2 then none else goDp2 rec f S best ks acc2

/-- Guess loop of `solveState` in `src/dp_solver_2.js` (lines 182-208). -/
def guessesDp2 (rec : List ℕ → ℚ) (pat : PatFn) (S : List ℕ) :
    List ℕ → Option ℚ → Option ℚ
  | [], best => best
  | g :: gs, best =>
    match goDp2 rec (pat g) S best (keysOf (pat g) S) 0 with
    | none => guessesDp2 rec pat S gs best
    | some e =>
      if ltBest best e then guessesDp2 rec pat S gs (some e)
      else guessesDp2 rec pat S gs best

/-- Fuelled value function of `solveState` in `src/dp_solver_2.js`
(lines 153-213); only the `value` component is embedded. -/
def solveStateDp2F (pat : PatFn) : ℕ → List ℕ → ℚ
  | 0, _ => 0
  | fuel + 1, S =>
    if S.length = 0 then 0
    else if S.length = 1 then 1
    else (guessesDp2 (solveStateDp2F pat fuel) pat S S none).getD 0

/-- Value of `solveState` in `src/dp_solver_2.js` on a candidate list. -/
def solveStateDp2 (pat : PatFn) (S : List ℕ) : ℚ :=
  solveStateDp2F pat (S.length + 1) S

/-- Specification-side full bucket sum of the dp_solver_2 recursion. -/
def sumD (rec : List ℕ → ℚ) (f : ℕ → Pat) (S : List ℕ) (ks : List Pat) : ℚ :=
  (ks.map fun k =>
    if k = allC
      then ((bucketOf f S k).length : ℚ) / (S.length : ℚ) * 1
      else ((bucketOf f S k).length : ℚ) / (S.length : ℚ) * (1 + rec (bucketOf f S k))).sum

/-- Specification-side guess loop of dp_solver_2 without branch-and-bound. -/
def guessesDp2NP (rec : List ℕ → ℚ) (pat : PatFn) (S : List ℕ) :
    List ℕ → Option ℚ → Option ℚ
  | [], best => best
  | g :: gs, best =>
    let t := sumD rec (pat g) S (keysOf (pat g) S)
    if ltBest best t then guessesDp2NP rec pat S gs (some t)
    else guessesDp2NP rec pat S gs best

/-- Specification-side unpruned variant of `solveState` of
`src/dp_solver_2.js`. -/
def solveStateDp2NPF (pat : PatFn) : ℕ → List ℕ → ℚ
  | 0, _ => 0
  | fuel + 1, S =>
    if S.length = 0 then 0
    else if S.length = 1 then 1
    else (guessesDp2NP (solveStateDp2NPF pat fuel) pat S S none).getD 0

/-- Bucket loop of the dp_top200 `solveState` in `src/unnamed/part_001`
(lines 874-887): the all-correct bucket is skipped outright (`continue`, so it
contributes 0 and no prune check), every other bucket is recursed into. -/
def goTop (rec : List ℕ → ℚ) (f : ℕ → Pat) (S : List ℕ) (best : Option ℚ) :
    List Pat → ℚ → Option ℚ
  | [], acc => some acc
  | k :: ks, acc =>
    if k = allC then goTop rec f S best ks acc
    else
      let acc2 :=
        acc + ((bucketOf f S k).length : ℚ) / (S.length : ℚ) * rec (bucketOf f S k)
      if pruneMain best acc2 then none else goTop rec f S best ks acc2

/-- Guess loop of the dp_top200 `solveState` in `src/unnamed/part_001`
(lines 857-896). -/
def guessesTop (rec : List ℕ → ℚ) (pat : PatFn) (S : List ℕ) :
    List ℕ → Option ℚ → Option ℚ
  | [], best => best
  | g :: gs, best =>
    match goTop rec (pat g) S best (keysOf (pat g) S) 0 with
    | none => guessesTop rec pat S gs best
    | some e =>
      if ltBest best (1 + e) then guessesTop rec pat S gs (some (1 + e))
      else guessesTop rec pat S gs best

/-- Fuelled value function of the dp_top200 `solveState` in
`src/unnamed/part_001` (lines 834-901). -/
def solveStateTopF (pat : PatFn) : ℕ → List ℕ → ℚ
  | 0, _ => 0
  | fuel + 1, S =>
    if S.length = 0 then 0
    else if S.length = 1 then 1
    else (guessesTop (solveStateTopF pat fuel) pat S S none).getD 0

/-- Value of the dp_top200 `solveState` of `src/unnamed/part_001`. -/
def solveStateTop (pat : PatFn) (S : List ℕ) : ℚ :=
  solveStateTopF pat (S.length + 1) S

/-- Fuelled value function of the open-pool `solveTail` of the dp_ext script
in `src/unnamed/part_001` (lines 504-554): identical bucket handling to
`solveState` of `src/main.js`, but guesses range over the whole universe
`0..N-1` instead of over `S`. -/
def solveTailExtF (pat : PatFn) (N : ℕ) : ℕ → List ℕ → ℚ
  | 0, _ => 0
  | fuel + 1, S =>
    if S.length = 0 then 0
    else if S.length = 1 then 1
    else (guessesMain (solveTailExtF pat N fuel) pat S (List.range N) none).getD 0

/-- Value of the open-pool `solveTail` of dp_ext in `src/unnamed/part_001`. -/
def solveTailExt (pat : PatFn) (N : ℕ) (S : List ℕ) : ℚ :=
  solveTailExtF pat N (S.length + 1) S

/-- The DP memo of `src/unnamed/part_000`: a JS `Map` in insertion order.
Keys are the candidate index lists themselves; the script's string key
`cands.join(',')` is injective on them, and under the solver's discipline a
present key is never re-set, so an insertion-ordered association list is an
exact model. -/
abbrev Memo := List (List ℕ × ℚ)

/-- JS `memo.get(key)` (first — and only — entry with this key). -/
def memoGet (m : Memo) (k : List ℕ) : Option ℚ :=
  (m.find? fun e => decide (e.1 = k)).map fun e => e.2

/-- The number of entries `memoStore` evicts in `src/unnamed/part_000`
(line 206): `Math.max(1, Math.floor(MAX_MEMO_ENTRIES * EVICT_FRACTION))`. -/
def evictCount (cap : ℕ) (frac : ℚ) : ℕ :=
  max 1 (((cap : ℚ) * frac).floor.toNat)

/-- The bounded `memoStore(key, value)` of `src/unnamed/part_000`
(lines 203-219): when the capacity is reached, the `toRem` oldest-inserted
entries are deleted (FIFO) before the new entry is appended. -/
def memoStore (cap toRem : ℕ) (m : Memo) (k : List ℕ) (v : ℚ) : Memo :=
  (if cap ≤ m.length then m.drop toRem else m) ++ [(k, v)]

/-- Bucket loop of `solveTail` in `src/unnamed/part_000` (lines 258-269),
threading the memo through the recursive calls. -/
def goTail (rec : List ℕ → Memo → ℚ × Memo) (f : ℕ → Pat) (S : List ℕ)
    (best : Option ℚ) : List Pat → ℚ → Memo → Option ℚ × Memo
  | [], acc, m => (some acc, m)
  | k :: ks, acc, m =>
    let r := rec (bucketOf f S k) m
    let acc2 := acc + ((bucketOf f S k).length : ℚ) / (S.length : ℚ) * r.1
    if pruneMain best acc2 then (none, r.2)
    else goTail rec f S best ks acc2 r.2

/-- Guess loop of `solveTail` in `src/unnamed/part_000` (lines 242-275). -/
def guessesTail (rec : List ℕ → Memo → ℚ × Memo) (pat : PatFn) (S : List ℕ) :
    List ℕ → Option ℚ → Memo → Option ℚ × Memo
  | [], best, m => (best, m)
  | g :: gs, best, m =>
    match goTail rec (pat g) S best (keysOf (pat g) S) 0 m with
    | (none, m2) => guessesTail rec pat S gs best m2
    | (some e, m2) =>
      if ltBest best (1 + e) then guessesTail rec pat S gs (some (1 + e)) m2
      else guessesTail rec pat S gs best m2

/-- Fuelled `solveTail` of `src/unnamed/part_000` (lines 221-279) with its
bounded memo: base cases first, then the memo lookup, then the hard-mode
guess loop, then `memoStore`. -/
def solveTailMemoF (pat : PatFn) (cap toRem : ℕ) :
    ℕ → List ℕ → Memo → ℚ × Memo
  | 0, _, m => (0, m)
  | fuel + 1, S, m =>
    if S.length = 0 then (0, m)
    else if S.length = 1 then (1, m)
    else
      match memoGet m S with
      | some v => (v, m)
      | none =>
        let r := guessesTail (solveTailMemoF pat cap toRem fuel) pat S S none m
        let v := r.1.getD 0
        (v, memoStore cap toRem r.2 S v)

/-- Correctness predicate for a memo: every entry stores exactly the pure
(memoless) value of its key. -/
def MemoOK (pat : PatFn) (m : Memo) : Prop :=
  ∀ e ∈ m, e.2 = solveTailPure pat e.1

/-- The root evaluator `expectedGivenFirstGuess(rootIdx, allCands)` of
`src/main.js` (lines 1786-1807): partition the universe by the forced root
guess and recurse with `solveState` into every bucket (the all-correct bucket
included — its `solveState` value is 1 by the singleton base case). -/
def expectedGivenFirstGuess (pat : PatFn) (root : ℕ) (U : List ℕ) : ℚ :=
  1 + ((keysOf (pat root) U).map fun k =>
    ((bucketOf (pat root) U k).length : ℚ) / (U.length : ℚ) *
      solveStateMain pat (bucketOf (pat root) U k)).sum

/-- The root evaluator `solveWithFixedRoot(gIdx)` of `src/unnamed/part_000`
(lines 288-310): same shape, recursing with `solveTail` into every bucket. -/
def solveWithFixedRoot (pat : PatFn) (U : List ℕ) (g : ℕ) : ℚ :=
  1 + ((keysOf (pat g) U).map fun k =>
    ((bucketOf (pat g) U k).length : ℚ) / (U.length : ℚ) *
      solveTailPure pat (bucketOf (pat g) U k)).sum

/-- The root evaluator `expectedWithRoot(rootIdx)` of the dp_top200 script in
`src/unnamed/part_001` (lines 914-942): the all-correct bucket is skipped
(`continue`), so it contributes 0 to the weighted sum. -/
def expectedWithRoot (pat : PatFn) (U : List ℕ) (root : ℕ) : ℚ :=
  1 + ((keysOf (pat root) U).map fun k =>
    if k = allC then 0
    else ((bucketOf (pat root) U k).length : ℚ) / (U.length : ℚ) *
      solveStateTop pat (bucketOf (pat root) U k)).sum

/-- The forced-first-guess root cost exactly as the specification words it:
`1 + Σ_bucket p_bucket · evaluatorFn(bucket)`, the all-correct bucket never
recursed into and contributing `p · 1` directly. -/
def forcedFirstGuessCostSpec (pat : PatFn) (eval : List ℕ → ℚ) (U : List ℕ)
    (g : ℕ) : ℚ :=
  1 + ((keysOf (pat g) U).map fun k =>
    ((bucketOf (pat g) U k).length : ℚ) / (U.length : ℚ) *
      (if k = allC then 1 else eval (bucketOf (pat g) U k))).sum

/-- The properties of a pattern table that the real feedback function grants
on a universe of distinct words: a guess against itself is all-correct, and
only against itself. -/
abbrev SepOn (pat : PatFn) (S : List ℕ) : Prop :=
  (∀ g ∈ S, pat g g = allC) ∧ ∀ g ∈ S, ∀ x ∈ S, pat g x = allC → x = g

/-- A concrete 5-letter word (`cigar`). -/
def w0 : Word := ['c', 'i', 'g', 'a', 'r']

/-- A concrete 5-letter word (`rebut`). -/
def w1 : Word := ['r', 'e', 'b', 'u', 't']

/-- The pattern table of the two-word universe `[cigar, rebut]`, computed by
the real feedback function, as the scripts precompute `PAT[i][j]`. -/
def patW : PatFn :=
  fun i j => pattern (if i = 0 then w0 else w1) (if j = 0 then w0 else w1)

lemma findFree_none {a : Word} {used : List Bool} {c : Char} :
    findFree a used c = none ↔ c ∉ availOf a used := by
  induction a generalizing used with
  | nil => cases used <;> simp [findFree, availOf]
  | cons x xs ih =>
    cases used with
    | nil => simp [findFree, availOf]
    | cons u us =>
      by_cases hu : u
      · subst hu
        simpa [findFree, availOf] using ih
      · have hu' : u = false := by simpa using hu
        subst hu'
        by_cases hx : x = c
        · subst hx
          simp [findFree, availOf]
        · simp [findFree, availOf, hx, Ne.symm hx, ih]

lemma findFree_some {a : Word} {used : List Bool} {c : Char} {j : ℕ}
    (h : findFree a used c = some j) :
    c ∈ availOf a used ∧
      availOf a (used.set j true) = (availOf a used).erase c := by
  induction a generalizing used j with
  | nil => cases used <;> simp [findFree] at h
  | cons x xs ih =>
    cases used with
    | nil => simp [findFree] at h
    | cons u us =>
      by_cases hu : u
      · subst hu
        simp only [findFree] at h
        rw [if_neg (by simp)] at h
        obtain ⟨j', hj', rfl⟩ := Option.map_eq_some'.1 h
        rcases ih hj' with ⟨hmem, hav⟩
        constructor
        · simpa [availOf] using hmem
        · simpa [availOf, List.set] using hav
      · have hu' : u = false := by simpa using hu
        subst hu'
        by_cases hx : x = c
        · subst hx
          simp only [findFree] at h
          rw [if_pos (by simp)] at h
          have hj : j = 0 := by
            have := h.symm
            injection this
          subst hj
          refine ⟨by simp [availOf], ?_⟩
          simp [availOf, List.set, List.erase_cons_head]
        · simp only [findFree] at h
          rw [if_neg (by simp [hx])] at h
          obtain ⟨j', hj', rfl⟩ := Option.map_eq_some'.1 h
          rcases ih hj' with ⟨hmem, hav⟩
          refine ⟨by simp [availOf, hmem], ?_⟩
          have hxc : (x == c) = false := by simpa using hx
          simp [availOf, List.set, hav, List.erase_cons, hxc]

lemma pass2used_eq (ps : List (Char × Char)) (a : Word) (used : List Bool) :
    pass2used ps a used = pass2avail ps (availOf a used) := by
  induction ps generalizing used with
  | nil => simp [pass2used, pass2avail]
  | cons p rest ih =>
    obtain ⟨gc, ac⟩ := p
    by_cases hg : ac = gc
    · simp [pass2used, pass2avail, hg, ih]
    · rcases hff : findFree a used gc with _ | j
      · have hnot : gc ∉ availOf a used := findFree_none.1 hff
        simp [pass2used, pass2avail, hg, hff, hnot, ih]
      · rcases findFree_some hff with ⟨hmem, hav⟩
        simp [pass2used, pass2avail, hg, hff, hmem, ih, hav]

lemma cntPass_count (g : Word) :
    ∀ (a : Word) (f : Char → ℕ) (c : Char),
      cntPass g a f c = f c + (availOf a (usedInit g a)).count c := by
  induction g with
  | nil => intro a f c; cases a <;> simp [cntPass, usedInit, availOf]
  | cons x xs ih =>
    intro a f c
    cases a with
    | nil => simp [cntPass, usedInit, availOf]
    | cons y ys =>
      by_cases h : x = y
      · have h' : y = x := h.symm
        rw [show cntPass (x :: xs) (y :: ys) f = cntPass xs ys f from by
              simp [cntPass, h'],
            show usedInit (x :: xs) (y :: ys) = true :: usedInit xs ys from by
              simp [usedInit, h],
            show availOf (y :: ys) (true :: usedInit xs ys)
                = availOf ys (usedInit xs ys) from by simp [availOf]]
        exact ih ys f c
      · have h' : ¬y = x := fun hc => h hc.symm
        rw [show cntPass (x :: xs) (y :: ys) f = cntPass xs ys (bump f y) from by
              simp [cntPass, h'],
            show usedInit (x :: xs) (y :: ys) = false :: usedInit xs ys from by
              simp [usedInit, h],
            show availOf (y :: ys) (false :: usedInit xs ys)
                = y :: availOf ys (usedInit xs ys) from by simp [availOf]]
        rw [ih ys (bump f y) c]
        simp only [bump, List.count_cons]
        by_cases hc : c = y
        · subst hc; simp; omega
        · have hbc : (y == c) = false := by
            simpa using fun hc' => hc hc'.symm
          simp [hc, hbc]

lemma pass2cnt_eq_avail (g : Word) :
    ∀ (a : Word) (f : Char → ℕ) (av : Word), (∀ c, f c = av.count c) →
      pass2cnt g a f = pass2avail (List.zip g a) av := by
  induction g with
  | nil => intro a f av _; cases a <;> simp [pass2cnt, pass2avail]
  | cons x xs ih =>
    intro a f av hf
    cases a with
    | nil => simp [pass2cnt, pass2avail]
    | cons y ys =>
      by_cases h : y = x
      · simp [pass2cnt, pass2avail, List.zip, h, ih _ _ _ hf]
      · by_cases hp : 0 < f x
        · have hmem : x ∈ av := by
            have := hf x; rw [this] at hp
            exact List.count_pos_iff.1 hp
          have hf' : ∀ c, dec1 f x c = (av.erase x).count c := by
            intro c
            by_cases hc : c = x
            · subst hc; simp [dec1, hf c, List.count_erase_self]
            · simp [dec1, hc, hf c, List.count_erase_of_ne hc]
          simp [pass2cnt, pass2avail, List.zip, h, hp, hmem, ih _ _ _ hf']
        · have hnot : x ∉ av := by
            intro hmem
            exact hp (by rw [hf x]; exact List.count_pos_iff.2 hmem)
          simp [pass2cnt, pass2avail, List.zip, h, hp, hnot, ih _ _ _ hf]

lemma pattern_eq_avail (g a : Word) :
    pattern g a = pass2avail (List.zip g a) (availOf a (usedInit g a)) := by
  refine pass2cnt_eq_avail g a _ _ ?_
  intro c
  simpa using cntPass_count g a (fun _ => 0) c

lemma pattern_eq_patternOf (g a : Word) : pattern g a = patternOf g a := by
  rw [pattern_eq_avail, patternOf, pass2used_eq]

lemma countUnmatched_eq (g : Word) :
    ∀ (a : Word) (c : Char),
      countUnmatched g a c = (availOf a (usedInit g a)).count c := by
  induction g with
  | nil => intro a c; cases a <;> simp [countUnmatched, usedInit, availOf]
  | cons x xs ih =>
    intro a c
    cases a with
    | nil => simp [countUnmatched, usedInit, availOf]
    | cons y ys =>
      by_cases h : x = y
      · rw [show countUnmatched (x :: xs) (y :: ys) c = countUnmatched xs ys c from by
              simp [countUnmatched, h.symm],
            show usedInit (x :: xs) (y :: ys) = true :: usedInit xs ys from by
              simp [usedInit, h],
            show availOf (y :: ys) (true :: usedInit xs ys)
                = availOf ys (usedInit xs ys) from by simp [availOf]]
        exact ih ys c
      · have h' : ¬y = x := fun hc => h hc.symm
        rw [show usedInit (x :: xs) (y :: ys) = false :: usedInit xs ys from by
              simp [usedInit, h],
            show availOf (y :: ys) (false :: usedInit xs ys)
                = y :: availOf ys (usedInit xs ys) from by simp [availOf]]
        simp only [countUnmatched, List.count_cons, ih ys c]
        by_cases hc : y = c
        · subst hc; simp [h']; omega
        · have hbc : (y == c) = false := by simpa using hc
          simp [hc, hbc]

lemma markYellow_le (ps : List (Char × Char)) :
    ∀ (av : Word) (c : Char),
      markYellow (List.zip (pass2avail ps av) (ps.map Prod.fst)) c ≤
        av.count c := by
  induction ps with
  | nil => intro av c; simp [pass2avail, markYellow]
  | cons p rest ih =>
    intro av c
    obtain ⟨gc, ac⟩ := p
    by_cases hg : ac = gc
    · rw [show pass2avail ((gc, ac) :: rest) av = '2' :: pass2avail rest av from by
            simp [pass2avail, hg]]
      simp only [List.map_cons, List.zip_cons_cons, markYellow]
      have hne : ¬('2' = '1' ∧ gc = c) := by simp
      rw [if_neg hne]
      simpa using ih av c
    · by_cases hmem : gc ∈ av
      · rw [show pass2avail ((gc, ac) :: rest) av
              = '1' :: pass2avail rest (av.erase gc) from by
            simp [pass2avail, hg, hmem]]
        simp only [List.map_cons, List.zip_cons_cons, markYellow]
        by_cases hc : gc = c
        · subst hc
          rw [if_pos (by simp)]
          have h1 : markYellow
              (List.zipWith Prod.mk (pass2avail rest (av.erase gc)) (rest.map Prod.fst)) gc ≤
              (av.erase gc).count gc := ih (av.erase gc) gc
          have h2 : (av.erase gc).count gc = av.count gc - 1 := List.count_erase_self gc av
          have h3 : 1 ≤ av.count gc := List.count_pos_iff.2 hmem
          omega
        · rw [if_neg (by simp [hc])]
          have h1 : markYellow
              (List.zipWith Prod.mk (pass2avail rest (av.erase gc)) (rest.map Prod.fst)) c ≤
              (av.erase gc).count c := ih (av.erase gc) c
          have h2 : (av.erase gc).count c = av.count c :=
            List.count_erase_of_ne (fun hcc => hc hcc.symm) av
          omega
      · rw [show pass2avail ((gc, ac) :: rest) av
              = '0' :: pass2avail rest av from by simp [pass2avail, hg, hmem]]
        simp only [List.map_cons, List.zip_cons_cons, markYellow]
        rw [if_neg (by simp)]
        simpa using ih av c

lemma pass2cnt_self (a : Word) (f : Char → ℕ) :
    pass2cnt a a f = List.replicate a.length '2' := by
  induction a generalizing f with
  | nil => simp [pass2cnt]
  | cons x xs ih => simp [pass2cnt, List.replicate, ih]

lemma pass2cnt_all2 (g : Word) :
    ∀ (a : Word) (f : Char → ℕ), g.length = a.length →
      pass2cnt g a f = List.replicate a.length '2' → g = a := by
  induction g with
  | nil =>
    intro a f hlen _
    cases a with
    | nil => rfl
    | cons y ys => simp at hlen
  | cons x xs ih =>
    intro a f hlen hall
    cases a with
    | nil => simp at hlen
    | cons y ys =>
      by_cases h : y = x
      · subst h
        rw [show pass2cnt (y :: xs) (y :: ys) f = '2' :: pass2cnt xs ys f from by
              simp [pass2cnt],
            List.length_cons, List.replicate_succ] at hall
        injection hall with h1 h2
        have := ih ys f (by simpa using hlen) h2
        simp [this]
      · exfalso
        rw [show pass2cnt (x :: xs) (y :: ys) f
              = if 0 < f x then '1' :: pass2cnt xs ys (dec1 f x)
                else '0' :: pass2cnt xs ys f from by simp [pass2cnt, h]] at hall
        by_cases hp : 0 < f x
        · rw [if_pos hp] at hall
          simp [List.replicate] at hall
        · rw [if_neg hp] at hall
          simp [List.replicate] at hall

lemma pattern_self (a : Word) : pattern a a = List.replicate a.length '2' :=
  pass2cnt_self a _

lemma pattern_all2_iff {g a : Word} (hlen : g.length = a.length) :
    pattern g a = List.replicate a.length '2' ↔ g = a := by
  constructor
  · intro h
    exact pass2cnt_all2 g a _ hlen h
  · intro h
    subst h
    exact pattern_self g

lemma filter_eq_single {α : Type} {S : List α} {p : α → Bool} {g : α}
    (hnd : S.Nodup) (hg : g ∈ S) (hp : ∀ x ∈ S, p x = true ↔ x = g) :
    S.filter p = [g] := by
  induction S with
  | nil => cases hg
  | cons x xs ih =>
    rcases List.nodup_cons.1 hnd with ⟨hx, hxs⟩
    by_cases hxg : x = g
    · have hpx : p x = true := (hp x (by simp)).2 hxg
      have hrest : xs.filter p = [] := by
        rw [List.filter_eq_nil_iff]
        intro y hy hpy
        have hyg := (hp y (by simp [hy])).1 hpy
        refine hx ?_
        rw [hxg, ← hyg]
        exact hy
      rw [List.filter_cons, if_pos hpx, hrest, hxg]
    · have hg' : g ∈ xs := by
        rcases List.mem_cons.1 hg with h | h
        · exact absurd h.symm hxg
        · exact h
      have hpx : ¬p x = true := fun hpx => hxg ((hp x (by simp)).1 hpx)
      rw [List.filter_cons, if_neg hpx]
      exact ih hxs hg' fun y hy => hp y (by simp [hy])

lemma mem_dedupFirstAux {κ : Type} [DecidableEq κ] {x : κ} :
    ∀ (n : ℕ) (l : List κ), l.length ≤ n → (x ∈ dedupFirstAux n l ↔ x ∈ l) := by
  intro n
  induction n with
  | zero =>
    intro l hl
    have hnil : l = [] := List.length_eq_zero.1 (by omega)
    subst hnil
    simp [dedupFirstAux]
  | succ n ih =>
    intro l hl
    cases l with
    | nil => simp [dedupFirstAux]
    | cons k ks =>
      rw [dedupFirstAux]
      have hlen : (ks.filter fun x => decide (¬x = k)).length ≤ n := by
        have := List.length_filter_le (fun x => decide (¬x = k)) ks
        simp only [List.length_cons] at hl
        omega
      simp only [List.mem_cons, ih _ hlen, List.mem_filter, decide_eq_true_eq]
      constructor
      · rintro (rfl | ⟨hx, _⟩)
        · exact Or.inl rfl
        · exact Or.inr hx
      · rintro (rfl | hx)
        · exact Or.inl rfl
        · by_cases hk : x = k
          · exact Or.inl hk
          · exact Or.inr ⟨hx, hk⟩

lemma mem_dedupFirst {κ : Type} [DecidableEq κ] {x : κ} {l : List κ} :
    x ∈ dedupFirst l ↔ x ∈ l :=
  mem_dedupFirstAux l.length l (le_refl _)

lemma nodup_dedupFirstAux {κ : Type} [DecidableEq κ] :
    ∀ (n : ℕ) (l : List κ), l.length ≤ n → (dedupFirstAux n l).Nodup := by
  intro n
  induction n with
  | zero =>
    intro l _
    cases l <;> simp [dedupFirstAux]
  | succ n ih =>
    intro l hl
    cases l with
    | nil => simp [dedupFirstAux]
    | cons k ks =>
      rw [dedupFirstAux]
      have hlen : (ks.filter fun x => decide (¬x = k)).length ≤ n := by
        have := List.length_filter_le (fun x => decide (¬x = k)) ks
        simp only [List.length_cons] at hl
        omega
      refine List.nodup_cons.2 ⟨?_, ih _ hlen⟩
      intro hmem
      rcases List.mem_filter.1 ((mem_dedupFirstAux _ _ hlen).1 hmem) with ⟨_, hk⟩
      simp at hk

lemma nodup_dedupFirst {κ : Type} [DecidableEq κ] (l : List κ) :
    (dedupFirst l).Nodup :=
  nodup_dedupFirstAux l.length l (le_refl _)

lemma mem_bucketOf {α κ : Type} [DecidableEq κ] {f : α → κ} {S : List α}
    {k : κ} {x : α} : x ∈ bucketOf f S k ↔ x ∈ S ∧ f x = k := by
  simp [bucketOf, List.mem_filter]

lemma mem_keysOf {α κ : Type} [DecidableEq κ] {f : α → κ} {S : List α}
    {k : κ} : k ∈ keysOf f S ↔ ∃ x ∈ S, f x = k := by
  simp [keysOf, mem_dedupFirst, List.mem_map]

lemma bucketOf_ne_nil {α κ : Type} [DecidableEq κ] {f : α → κ} {S : List α}
    {k : κ} (hk : k ∈ keysOf f S) : bucketOf f S k ≠ [] := by
  rcases mem_keysOf.1 hk with ⟨x, hx, rfl⟩
  intro hnil
  have hmem : x ∈ bucketOf f S (f x) := mem_bucketOf.2 ⟨hx, rfl⟩
  rw [hnil] at hmem
  cases hmem

lemma length_bucketOf {α κ : Type} [DecidableEq κ] (f : α → κ) (S : List α)
    (k : κ) :
    (bucketOf f S k).length = S.countP fun x => decide (f x = k) :=
  (List.countP_eq_length_filter _ _).symm

lemma sum_map_ite_count {κ : Type} [DecidableEq κ] (l : List κ) (v : κ) :
    (l.map fun k => if v = k then 1 else 0).sum = l.count v := by
  induction l with
  | nil => simp
  | cons k ks ih =>
    simp only [List.map_cons, List.sum_cons, ih, List.count_cons]
    by_cases h : v = k
    · subst h; simp; omega
    · have hb : (k == v) = false := by simpa using fun hc => h hc.symm
      simp [h, hb]

lemma sum_map_split {κ : Type} (ks : List κ) (F G : κ → ℕ) :
    (ks.map fun k => F k + G k).sum = (ks.map F).sum + (ks.map G).sum := by
  induction ks with
  | nil => simp
  | cons k kt ih =>
    simp only [List.map_cons, List.sum_cons, ih]
    omega

lemma sum_countP_eq_length {α κ : Type} [DecidableEq κ] (f : α → κ) :
    ∀ (S : List α) (ks : List κ), ks.Nodup → (∀ x ∈ S, f x ∈ ks) →
      (ks.map fun k => S.countP fun x => decide (f x = k)).sum = S.length := by
  intro S
  induction S with
  | nil =>
    intro ks _ _
    have hz : ∀ y ∈ ks.map fun k => List.countP (fun x => decide (f x = k)) [], y = 0 := by
      simp
    simp [List.sum_eq_zero hz]
  | cons x xs ih =>
    intro ks hnd hmem
    have hx : f x ∈ ks := hmem x (by simp)
    have hcount : ks.count (f x) = 1 := List.count_eq_one_of_mem hnd hx
    have hterm : (ks.map fun k => (x :: xs).countP fun y => decide (f y = k))
        = ks.map fun k =>
            (xs.countP fun y => decide (f y = k)) + if f x = k then 1 else 0 := by
      refine List.map_congr_left ?_
      intro k _
      rw [List.countP_cons]
      by_cases h : f x = k
      · simp [h]
      · simp [h]
    rw [hterm, sum_map_split, ih ks hnd (fun y hy => hmem y (by simp [hy])),
      sum_map_ite_count ks (f x), hcount, List.length_cons]

lemma sum_bucket_lengths {α κ : Type} [DecidableEq κ] (f : α → κ) (S : List α) :
    ((keysOf f S).map fun k => (bucketOf f S k).length).sum = S.length := by
  have hcong : ((keysOf f S).map fun k => (bucketOf f S k).length)
      = (keysOf f S).map fun k => S.countP fun x => decide (f x = k) := by
    refine List.map_congr_left ?_
    intro k _
    exact length_bucketOf f S k
  rw [hcong]
  exact sum_countP_eq_length f S _ (nodup_dedupFirst _)
    fun x hx => mem_dedupFirst.2 (List.mem_map_of_mem f hx)

lemma bucketOf_allC_eq {pat : PatFn} {S : List ℕ} {g : ℕ}
    (hsep : SepOn pat S) (hnd : S.Nodup) (hg : g ∈ S) :
    bucketOf (pat g) S allC = [g] := by
  refine filter_eq_single hnd hg ?_
  intro x hx
  simp only [decide_eq_true_eq]
  constructor
  · intro h
    exact hsep.2 g hg x hx h
  · intro h
    subst h
    exact hsep.1 x hx

lemma allC_mem_keysOf {pat : PatFn} {S : List ℕ} {g : ℕ}
    (hsep : SepOn pat S) (hg : g ∈ S) : allC ∈ keysOf (pat g) S :=
  mem_keysOf.2 ⟨g, hg, hsep.1 g hg⟩

lemma bucketOf_ne_allC_length {pat : PatFn} {S : List ℕ} {g : ℕ} {k : Pat}
    (hsep : SepOn pat S) (hnd : S.Nodup) (hg : g ∈ S) (hk : k ≠ allC) :
    (bucketOf (pat g) S k).length ≤ S.length - 1 := by
  have hgnot : g ∉ bucketOf (pat g) S k := by
    intro hmem
    rcases mem_bucketOf.1 hmem with ⟨_, hck⟩
    exact hk (hck ▸ hsep.1 g hg)
  have hsub : bucketOf (pat g) S k ⊆ S.erase g := by
    intro y hy
    rcases mem_bucketOf.1 hy with ⟨hyS, _⟩
    have hyg : y ≠ g := fun h => hgnot (h ▸ hy)
    exact (List.mem_erase_of_ne hyg).2 hyS
  have hndb : (bucketOf (pat g) S k).Nodup := hnd.filter _
  have hle : (bucketOf (pat g) S k).length ≤ (S.erase g).length :=
    (List.subperm_of_subset hndb hsub).length_le
  rwa [List.length_erase_of_mem hg] at hle

lemma bucketOf_length_lt {pat : PatFn} {S : List ℕ} {g : ℕ} {k : Pat}
    (hsep : SepOn pat S) (hnd : S.Nodup) (hg : g ∈ S) (h2 : 2 ≤ S.length)
    (hk : k ∈ keysOf (pat g) S) :
    (bucketOf (pat g) S k).length < S.length := by
  by_cases hka : k = allC
  · subst hka
    rw [bucketOf_allC_eq hsep hnd hg]
    simpa using by omega
  · have := bucketOf_ne_allC_length hsep hnd hg hka
    omega

lemma bucketOf_length_pos {α κ : Type} [DecidableEq κ] {f : α → κ}
    {S : List α} {k : κ} (hk : k ∈ keysOf f S) :
    0 < (bucketOf f S k).length :=
  List.length_pos.2 (bucketOf_ne_nil hk)

lemma SepOn.mono {pat : PatFn} {S T : List ℕ} (hsep : SepOn pat S)
    (hsub : T ⊆ S) : SepOn pat T :=
  ⟨fun g hg => hsep.1 g (hsub hg),
   fun g hg x hx h => hsep.2 g (hsub hg) x (hsub hx) h⟩

lemma bucketOf_subset {α κ : Type} [DecidableEq κ] (f : α → κ) (S : List α)
    (k : κ) : bucketOf f S k ⊆ S := by
  intro x hx
  exact (mem_bucketOf.1 hx).1

lemma sumB_nil (rec : List ℕ → ℚ) (f : ℕ → Pat) (S : List ℕ) :
    sumB rec f S [] = 0 := by simp [sumB]

lemma sumB_cons (rec : List ℕ → ℚ) (f : ℕ → Pat) (S : List ℕ) (k : Pat)
    (ks : List Pat) :
    sumB rec f S (k :: ks)
      = ((bucketOf f S k).length : ℚ) / (S.length : ℚ) * rec (bucketOf f S k)
        + sumB rec f S ks := by
  simp [sumB]

lemma sumB_nonneg {rec : List ℕ → ℚ} {f : ℕ → Pat} {S : List ℕ}
    {ks : List Pat} (hrec : ∀ k ∈ ks, 0 ≤ rec (bucketOf f S k)) :
    0 ≤ sumB rec f S ks := by
  induction ks with
  | nil => simp [sumB_nil]
  | cons k kt ih =>
    rw [sumB_cons]
    have h1 : (0 : ℚ) ≤ ((bucketOf f S k).length : ℚ) / (S.length : ℚ) :=
      div_nonneg (by positivity) (by positivity)
    have h2 := hrec k (by simp)
    have h3 := ih fun k' hk' => hrec k' (by simp [hk'])
    positivity

lemma goMain_none_start (rec : List ℕ → ℚ) (f : ℕ → Pat) (S : List ℕ) :
    ∀ (ks : List Pat) (acc : ℚ),
      goMain rec f S none ks acc = some (acc + sumB rec f S ks) := by
  intro ks
  induction ks with
  | nil => intro acc; simp [goMain, sumB_nil]
  | cons k kt ih =>
    intro acc
    rw [goMain]
    simp only [pruneMain, Bool.false_eq_true, if_false, ih, sumB_cons]
    ring_nf

lemma goMain_some {rec : List ℕ → ℚ} {f : ℕ → Pat} {S : List ℕ}
    {best : Option ℚ} :
    ∀ {ks : List Pat} {acc e : ℚ},
      goMain rec f S best ks acc = some e → e = acc + sumB rec f S ks := by
  intro ks
  induction ks with
  | nil =>
    intro acc e h
    rw [goMain] at h
    cases h
    simp [sumB_nil]
  | cons k kt ih =>
    intro acc e h
    rw [goMain] at h
    by_cases hp : pruneMain best
        (acc + ((bucketOf f S k).length : ℚ) / (S.length : ℚ) * rec (bucketOf f S k)) = true
    · rw [if_pos hp] at h; cases h
    · rw [if_neg hp] at h
      rw [ih h, sumB_cons]
      ring

lemma goMain_none_best {rec : List ℕ → ℚ} {f : ℕ → Pat} {S : List ℕ} {b : ℚ} :
    ∀ {ks : List Pat} {acc : ℚ},
      (∀ k ∈ ks, 0 ≤ rec (bucketOf f S k)) →
      goMain rec f S (some b) ks acc = none →
      b ≤ 1 + (acc + sumB rec f S ks) := by
  intro ks
  induction ks with
  | nil =>
    intro acc _ h
    rw [goMain] at h
    cases h
  | cons k kt ih =>
    intro acc hrec h
    rw [goMain] at h
    set t := ((bucketOf f S k).length : ℚ) / (S.length : ℚ) * rec (bucketOf f S k) with ht
    by_cases hp : pruneMain (some b) (acc + t) = true
    · have hb : b ≤ acc + t + 1 := by
        simpa [pruneMain] using hp
      have htail : 0 ≤ sumB rec f S kt :=
        sumB_nonneg fun k' hk' => hrec k' (by simp [hk'])
      rw [sumB_cons, ← ht]
      linarith
    · rw [if_neg hp] at h
      have := ih (fun k' hk' => hrec k' (by simp [hk'])) h
      rw [sumB_cons, ← ht]
      linarith

lemma goMain_congr {rec₁ rec₂ : List ℕ → ℚ} {f : ℕ → Pat} {S : List ℕ}
    {best : Option ℚ} :
    ∀ {ks : List Pat} {acc : ℚ},
      (∀ k ∈ ks, rec₁ (bucketOf f S k) = rec₂ (bucketOf f S k)) →
      goMain rec₁ f S best ks acc = goMain rec₂ f S best ks acc := by
  intro ks
  induction ks with
  | nil => intro acc _; rfl
  | cons k kt ih =>
    intro acc hrec
    rw [goMain, goMain, hrec k (by simp)]
    by_cases hp : pruneMain best
        (acc + ((bucketOf f S k).length : ℚ) / (S.length : ℚ) * rec₂ (bucketOf f S k)) = true
    · rw [if_pos hp, if_pos hp]
    · rw [if_neg hp, if_neg hp]
      exact ih fun k' hk' => hrec k' (by simp [hk'])

lemma sumB_congr {rec₁ rec₂ : List ℕ → ℚ} {f : ℕ → Pat} {S : List ℕ}
    {ks : List Pat}
    (hrec : ∀ k ∈ ks, rec₁ (bucketOf f S k) = rec₂ (bucketOf f S k)) :
    sumB rec₁ f S ks = sumB rec₂ f S ks := by
  induction ks with
  | nil => simp [sumB_nil]
  | cons k kt ih =>
    rw [sumB_cons, sumB_cons, hrec k (by simp),
      ih fun k' hk' => hrec k' (by simp [hk'])]

lemma guessesMain_keep {rec : List ℕ → ℚ} {pat : PatFn} {S : List ℕ} :
    ∀ {gs : List ℕ} {b : ℚ},
      ∃ r, guessesMain rec pat S gs (some b) = some r ∧ r ≤ b := by
  intro gs
  induction gs with
  | nil => intro b; exact ⟨b, rfl, le_refl b⟩
  | cons g gt ih =>
    intro b
    rw [guessesMain]
    cases hgo : goMain rec (pat g) S (some b) (keysOf (pat g) S) 0 with
    | none => exact ih
    | some e =>
      dsimp only
      by_cases hlt : ltBest (some b) (1 + e) = true
      · rw [if_pos hlt]
        have hb : 1 + e < b := by simpa [ltBest] using hlt
        rcases @ih (1 + e) with ⟨r, hr, hle⟩
        exact ⟨r, hr, le_trans hle (le_of_lt hb)⟩
      · rw [if_neg hlt]
        exact ih

lemma guessesMain_sound {rec : List ℕ → ℚ} {pat : PatFn} {S : List ℕ} :
    ∀ {gs : List ℕ} {best : Option ℚ} {r : ℚ},
      guessesMain rec pat S gs best = some r →
      best = some r ∨ ∃ g ∈ gs, r = 1 + sumB rec (pat g) S (keysOf (pat g) S) := by
  intro gs
  induction gs with
  | nil =>
    intro best r h
    exact Or.inl h
  | cons g gt ih =>
    intro best r h
    rw [guessesMain] at h
    cases hgo : goMain rec (pat g) S best (keysOf (pat g) S) 0 with
    | none =>
      rw [hgo] at h
      rcases ih h with h1 | ⟨g', hg', hr⟩
      · exact Or.inl h1
      · exact Or.inr ⟨g', by simp [hg'], hr⟩
    | some e =>
      rw [hgo] at h
      dsimp only at h
      have he : e = 0 + sumB rec (pat g) S (keysOf (pat g) S) := goMain_some hgo
      by_cases hlt : ltBest best (1 + e) = true
      · rw [if_pos hlt] at h
        rcases ih h with h1 | ⟨g', hg', hr⟩
        · refine Or.inr ⟨g, by simp, ?_⟩
          have h2 : 1 + e = r := Option.some.inj h1
          rw [← h2, he]
          ring
        · exact Or.inr ⟨g', by simp [hg'], hr⟩
      · rw [if_neg hlt] at h
        rcases ih h with h1 | ⟨g', hg', hr⟩
        · exact Or.inl h1
        · exact Or.inr ⟨g', by simp [hg'], hr⟩

lemma guessesMain_head {rec : List ℕ → ℚ} {pat : PatFn} {S : List ℕ}
    (g : ℕ) (gt : List ℕ) :
    ∃ r, guessesMain rec pat S (g :: gt) none = some r ∧
      r ≤ 1 + sumB rec (pat g) S (keysOf (pat g) S) := by
  rw [guessesMain, goMain_none_start]
  dsimp only
  have hlt : ltBest none (1 + (0 + sumB rec (pat g) S (keysOf (pat g) S))) = true := rfl
  rw [if_pos hlt]
  rcases @guessesMain_keep rec pat S gt (1 + (0 + sumB rec (pat g) S (keysOf (pat g) S)))
    with ⟨r, hr, hle⟩
  exact ⟨r, hr, by linarith⟩

lemma guessesMain_congr {rec₁ rec₂ : List ℕ → ℚ} {pat : PatFn} {S : List ℕ} :
    ∀ {gs : List ℕ} {best : Option ℚ},
      (∀ g ∈ gs, ∀ k ∈ keysOf (pat g) S,
        rec₁ (bucketOf (pat g) S k) = rec₂ (bucketOf (pat g) S k)) →
      guessesMain rec₁ pat S gs best = guessesMain rec₂ pat S gs best := by
  intro gs
  induction gs with
  | nil => intro best _; rfl
  | cons g gt ih =>
    intro best hrec
    rw [guessesMain, guessesMain,
      goMain_congr fun k hk => hrec g (by simp) k hk]
    cases hgo : goMain rec₂ (pat g) S best (keysOf (pat g) S) 0 with
    | none => exact ih fun g' hg' => hrec g' (by simp [hg'])
    | some e =>
      dsimp only
      by_cases hlt : ltBest best (1 + e) = true
      · rw [if_pos hlt, if_pos hlt]
        exact ih fun g' hg' => hrec g' (by simp [hg'])
      · rw [if_neg hlt, if_neg hlt]
        exact ih fun g' hg' => hrec g' (by simp [hg'])

lemma solveStateMainF_nonneg (pat : PatFn) :
    ∀ (fuel : ℕ) (S : List ℕ), 0 ≤ solveStateMainF pat fuel S := by
  intro fuel
  induction fuel with
  | zero => intro S; simp [solveStateMainF]
  | succ fuel ih =>
    intro S
    rw [solveStateMainF]
    by_cases h0 : S.length = 0
    · simp [h0]
    · rw [if_neg h0]
      by_cases h1 : S.length = 1
      · simp [h1]
      · rw [if_neg h1]
        cases hres : guessesMain (solveStateMainF pat fuel) pat S S none with
        | none => simp
        | some r =>
          simp only [Option.getD_some]
          rcases guessesMain_sound hres with h | ⟨g, _, hr⟩
          · cases h
          · have hs : 0 ≤ sumB (solveStateMainF pat fuel) (pat g) S (keysOf (pat g) S) :=
              sumB_nonneg fun k _ => ih _
            rw [hr]
            linarith

lemma solveTailExtF_nonneg (pat : PatFn) (N : ℕ) :
    ∀ (fuel : ℕ) (S : List ℕ), 0 ≤ solveTailExtF pat N fuel S := by
  intro fuel
  induction fuel with
  | zero => intro S; simp [solveTailExtF]
  | succ fuel ih =>
    intro S
    rw [solveTailExtF]
    by_cases h0 : S.length = 0
    · simp [h0]
    · rw [if_neg h0]
      by_cases h1 : S.length = 1
      · simp [h1]
      · rw [if_neg h1]
        cases hres : guessesMain (solveTailExtF pat N fuel) pat S (List.range N) none with
        | none => simp
        | some r =>
          simp only [Option.getD_some]
          rcases guessesMain_sound hres with h | ⟨g, _, hr⟩
          · cases h
          · have hs : 0 ≤ sumB (solveTailExtF pat N fuel) (pat g) S (keysOf (pat g) S) :=
              sumB_nonneg fun k _ => ih _
            rw [hr]
            linarith

lemma guessesMain_eq_NP {rec : List ℕ → ℚ} {pat : PatFn} {S : List ℕ}
    (hrec : ∀ l, 0 ≤ rec l) :
    ∀ (gs : List ℕ) (best : Option ℚ),
      guessesMain rec pat S gs best = guessesMainNP rec pat S gs best := by
  intro gs
  induction gs with
  | nil => intro best; rfl
  | cons g gt ih =>
    intro best
    rw [guessesMain, guessesMainNP]
    cases hgo : goMain rec (pat g) S best (keysOf (pat g) S) 0 with
    | none =>
      dsimp only
      cases best with
      | none => rw [goMain_none_start] at hgo; cases hgo
      | some b =>
        have hb : b ≤ 1 + (0 + sumB rec (pat g) S (keysOf (pat g) S)) :=
          goMain_none_best (fun k _ => hrec _) hgo
        have hlt : ltBest (some b) (1 + sumB rec (pat g) S (keysOf (pat g) S)) = false := by
          simp only [ltBest, decide_eq_false_iff_not, not_lt]
          linarith
        rw [hlt]
        simp only [Bool.false_eq_true, if_false]
        exact ih _
    | some e =>
      dsimp only
      have he : e = 0 + sumB rec (pat g) S (keysOf (pat g) S) := goMain_some hgo
      rw [he, zero_add]
      by_cases hlt : ltBest best (1 + sumB rec (pat g) S (keysOf (pat g) S)) = true
      · rw [if_pos hlt, if_pos hlt]
        exact ih _
      · rw [if_neg hlt, if_neg hlt]
        exact ih _

lemma guessesMainNP_congr {rec₁ rec₂ : List ℕ → ℚ} {pat : PatFn} {S : List ℕ}
    (hrec : ∀ l, rec₁ l = rec₂ l) :
    ∀ (gs : List ℕ) (best : Option ℚ),
      guessesMainNP rec₁ pat S gs best = guessesMainNP rec₂ pat S gs best := by
  intro gs
  induction gs with
  | nil => intro best; rfl
  | cons g gt ih =>
    intro best
    rw [guessesMainNP, guessesMainNP, sumB_congr fun k _ => hrec _]
    by_cases hlt : ltBest best (1 + sumB rec₂ (pat g) S (keysOf (pat g) S)) = true
    · rw [if_pos hlt, if_pos hlt, ih]
    · rw [if_neg hlt, if_neg hlt, ih]

lemma solveStateMainF_eq_NPF (pat : PatFn) :
    ∀ (fuel : ℕ) (S : List ℕ),
      solveStateMainF pat fuel S = solveStateMainNPF pat fuel S := by
  intro fuel
  induction fuel with
  | zero => intro S; rfl
  | succ fuel ih =>
    intro S
    rw [solveStateMainF, solveStateMainNPF]
    by_cases h0 : S.length = 0
    · rw [if_pos h0, if_pos h0]
    · rw [if_neg h0, if_neg h0]
      by_cases h1 : S.length = 1
      · rw [if_pos h1, if_pos h1]
      · rw [if_neg h1, if_neg h1,
          guessesMain_eq_NP (solveStateMainF_nonneg pat fuel) S none,
          guessesMainNP_congr ih S none]

lemma sumD_nil (rec : List ℕ → ℚ) (f : ℕ → Pat) (S : List ℕ) :
    sumD rec f S [] = 0 := by simp [sumD]

lemma sumD_cons (rec : List ℕ → ℚ) (f : ℕ → Pat) (S : List ℕ) (k : Pat)
    (ks : List Pat) :
    sumD rec f S (k :: ks)
      = (if k = allC
          then ((bucketOf f S k).length : ℚ) / (S.length : ℚ) * 1
          else ((bucketOf f S k).length : ℚ) / (S.length : ℚ) * (1 + rec (bucketOf f S k)))
        + sumD rec f S ks := by
  simp [sumD]

lemma costD_nonneg {rec : List ℕ → ℚ} {f : ℕ → Pat} {S : List ℕ} {k : Pat}
    (hrec : 0 ≤ rec (bucketOf f S k)) :
    0 ≤ (if k = allC
          then ((bucketOf f S k).length : ℚ) / (S.length : ℚ) * 1
          else ((bucketOf f S k).length : ℚ) / (S.length : ℚ) * (1 + rec (bucketOf f S k))) := by
  have hp : (0 : ℚ) ≤ ((bucketOf f S k).length : ℚ) / (S.length : ℚ) :=
    div_nonneg (by positivity) (by positivity)
  by_cases h : k = allC
  · simp [h]
    positivity
  · rw [if_neg h]
    have : (0 : ℚ) ≤ 1 + rec (bucketOf f S k) := by linarith
    exact mul_nonneg hp this

lemma sumD_nonneg {rec : List ℕ → ℚ} {f : ℕ → Pat} {S : List ℕ}
    {ks : List Pat} (hrec : ∀ k ∈ ks, 0 ≤ rec (bucketOf f S k)) :
    0 ≤ sumD rec f S ks := by
  induction ks with
  | nil => simp [sumD_nil]
  | cons k kt ih =>
    rw [sumD_cons]
    have h1 := costD_nonneg (hrec k (by simp))
    have h2 := ih fun k' hk' => hrec k' (by simp [hk'])
    linarith

lemma goDp2_none_start (rec : List ℕ → ℚ) (f : ℕ → Pat) (S : List ℕ) :
    ∀ (ks : List Pat) (acc : ℚ),
      goDp2 rec f S none ks acc = some (acc + sumD rec f S ks) := by
  intro ks
  induction ks with
  | nil => intro acc; simp [goDp2, sumD_nil]
  | cons k kt ih =>
    intro acc
    rw [goDp2]
    simp only [pruneDp2, Bool.false_eq_true, if_false, ih, sumD_cons]
    congr 1
    ring

lemma goDp2_some {rec : List ℕ → ℚ} {f : ℕ → Pat} {S : List ℕ}
    {best : Option ℚ} :
    ∀ {ks : List Pat} {acc e : ℚ},
      goDp2 rec f S best ks acc = some e → e = acc + sumD rec f S ks := by
  intro ks
  induction ks with
  | nil =>
    intro acc e h
    rw [goDp2] at h
    cases h
    simp [sumD_nil]
  | cons k kt ih =>
    intro acc e h
    rw [goDp2] at h
    set c := (if k = allC
        then ((bucketOf f S k).length : ℚ) / (S.length : ℚ) * 1
        else ((bucketOf f S k).length : ℚ) / (S.length : ℚ) * (1 + rec (bucketOf f S k)))
      with hc
    by_cases hp : pruneDp2 best (acc + c) = true
    · rw [if_pos hp] at h; cases h
    · rw [if_neg hp] at h
      rw [ih h, sumD_cons, ← hc]
      ring

lemma goDp2_none_best {rec : List ℕ → ℚ} {f : ℕ → Pat} {S : List ℕ} {b : ℚ} :
    ∀ {ks : List Pat} {acc : ℚ},
      (∀ k ∈ ks, 0 ≤ rec (bucketOf f S k)) →
      goDp2 rec f S (some b) ks acc = none →
      b ≤ acc + sumD rec f S ks := by
  intro ks
  induction ks with
  | nil =>
    intro acc _ h
    rw [goDp2] at h
    cases h
  | cons k kt ih =>
    intro acc hrec h
    rw [goDp2] at h
    set c := (if k = allC
        then ((bucketOf f S k).length : ℚ) / (S.length : ℚ) * 1
        else ((bucketOf f S k).length : ℚ) / (S.length : ℚ) * (1 + rec (bucketOf f S k)))
      with hc
    by_cases hp : pruneDp2 (some b) (acc + c) = true
    · have hb : b ≤ acc + c := by
        simpa [pruneDp2] using hp
      have htail : 0 ≤ sumD rec f S kt :=
        sumD_nonneg fun k' hk' => hrec k' (by simp [hk'])
      rw [sumD_cons, ← hc]
      linarith
    · rw [if_neg hp] at h
      have := ih (fun k' hk' => hrec k' (by simp [hk'])) h
      rw [sumD_cons, ← hc]
      linarith

lemma sumD_congr {rec₁ rec₂ : List ℕ → ℚ} {f : ℕ → Pat} {S : List ℕ}
    {ks : List Pat}
    (hrec : ∀ k ∈ ks, rec₁ (bucketOf f S k) = rec₂ (bucketOf f S k)) :
    sumD rec₁ f S ks = sumD rec₂ f S ks := by
  induction ks with
  | nil => simp [sumD_nil]
  | cons k kt ih =>
    rw [sumD_cons, sumD_cons, hrec k (by simp),
      ih fun k' hk' => hrec k' (by simp [hk'])]

lemma goDp2_congr {rec₁ rec₂ : List ℕ → ℚ} {f : ℕ → Pat} {S : List ℕ}
    {best : Option ℚ} :
    ∀ {ks : List Pat} {acc : ℚ},
      (∀ k ∈ ks, rec₁ (bucketOf f S k) = rec₂ (bucketOf f S k)) →
      goDp2 rec₁ f S best ks acc = goDp2 rec₂ f S best ks acc := by
  intro ks
  induction ks with
  | nil => intro acc _; rfl
  | cons k kt ih =>
    intro acc hrec
    rw [goDp2, goDp2, hrec k (by simp)]
    set c := (if k = allC
        then ((bucketOf f S k).length : ℚ) / (S.length : ℚ) * 1
        else ((bucketOf f S k).length : ℚ) / (S.length : ℚ) * (1 + rec₂ (bucketOf f S k)))
      with hc
    by_cases hp : pruneDp2 best (acc + c) = true
    · rw [if_pos hp, if_pos hp]
    · rw [if_neg hp, if_neg hp]
      exact ih fun k' hk' => hrec k' (by simp [hk'])

lemma guessesDp2_keep {rec : List ℕ → ℚ} {pat : PatFn} {S : List ℕ} :
    ∀ {gs : List ℕ} {b : ℚ},
      ∃ r, guessesDp2 rec pat S gs (some b) = some r ∧ r ≤ b := by
  intro gs
  induction gs with
  | nil => intro b; exact ⟨b, rfl, le_refl b⟩
  | cons g gt ih =>
    intro b
    rw [guessesDp2]
    cases hgo : goDp2 rec (pat g) S (some b) (keysOf (pat g) S) 0 with
    | none => exact ih
    | some e =>
      dsimp only
      by_cases hlt : ltBest (some b) e = true
      · rw [if_pos hlt]
        have hb : e < b := by simpa [ltBest] using hlt
        rcases @ih e with ⟨r, hr, hle⟩
        exact ⟨r, hr, le_trans hle (le_of_lt hb)⟩
      · rw [if_neg hlt]
        exact ih

lemma guessesDp2_sound {rec : List ℕ → ℚ} {pat : PatFn} {S : List ℕ} :
    ∀ {gs : List ℕ} {best : Option ℚ} {r : ℚ},
      guessesDp2 rec pat S gs best = some r →
      best = some r ∨ ∃ g ∈ gs, r = sumD rec (pat g) S (keysOf (pat g) S) := by
  intro gs
  induction gs with
  | nil =>
    intro best r h
    exact Or.inl h
  | cons g gt ih =>
    intro best r h
    rw [guessesDp2] at h
    cases hgo : goDp2 rec (pat g) S best (keysOf (pat g) S) 0 with
    | none =>
      rw [hgo] at h
      rcases ih h with h1 | ⟨g', hg', hr⟩
      · exact Or.inl h1
      · exact Or.inr ⟨g', by simp [hg'], hr⟩
    | some e =>
      rw [hgo] at h
      dsimp only at h
      have he : e = 0 + sumD rec (pat g) S (keysOf (pat g) S) := goDp2_some hgo
      by_cases hlt : ltBest best e = true
      · rw [if_pos hlt] at h
        rcases ih h with h1 | ⟨g', hg', hr⟩
        · refine Or.inr ⟨g, by simp, ?_⟩
          have h2 : e = r := Option.some.inj h1
          rw [← h2, he]
          ring
        · exact Or.inr ⟨g', by simp [hg'], hr⟩
      · rw [if_neg hlt] at h
        rcases ih h with h1 | ⟨g', hg', hr⟩
        · exact Or.inl h1
        · exact Or.inr ⟨g', by simp [hg'], hr⟩

lemma guessesDp2_head {rec : List ℕ → ℚ} {pat : PatFn} {S : List ℕ}
    (g : ℕ) (gt : List ℕ) :
    ∃ r, guessesDp2 rec pat S (g :: gt) none = some r ∧
      r ≤ sumD rec (pat g) S (keysOf (pat g) S) := by
  rw [guessesDp2, goDp2_none_start]
  dsimp only
  have hlt : ltBest none (0 + sumD rec (pat g) S (keysOf (pat g) S)) = true := rfl
  rw [if_pos hlt]
  rcases @guessesDp2_keep rec pat S gt (0 + sumD rec (pat g) S (keysOf (pat g) S))
    with ⟨r, hr, hle⟩
  exact ⟨r, hr, by linarith⟩

lemma guessesDp2_congr {rec₁ rec₂ : List ℕ → ℚ} {pat : PatFn} {S : List ℕ} :
    ∀ {gs : List ℕ} {best : Option ℚ},
      (∀ g ∈ gs, ∀ k ∈ keysOf (pat g) S,
        rec₁ (bucketOf (pat g) S k) = rec₂ (bucketOf (pat g) S k)) →
      guessesDp2 rec₁ pat S gs best = guessesDp2 rec₂ pat S gs best := by
  intro gs
  induction gs with
  | nil => intro best _; rfl
  | cons g gt ih =>
    intro best hrec
    rw [guessesDp2, guessesDp2,
      goDp2_congr fun k hk => hrec g (by simp) k hk]
    cases hgo : goDp2 rec₂ (pat g) S best (keysOf (pat g) S) 0 with
    | none => exact ih fun g' hg' => hrec g' (by simp [hg'])
    | some e =>
      dsimp only
      by_cases hlt : ltBest best e = true
      · rw [if_pos hlt, if_pos hlt]
        exact ih fun g' hg' => hrec g' (by simp [hg'])
      · rw [if_neg hlt, if_neg hlt]
        exact ih fun g' hg' => hrec g' (by simp [hg'])

lemma solveStateDp2F_nonneg (pat : PatFn) :
    ∀ (fuel : ℕ) (S : List ℕ), 0 ≤ solveStateDp2F pat fuel S := by
  intro fuel
  induction fuel with
  | zero => intro S; simp [solveStateDp2F]
  | succ fuel ih =>
    intro S
    rw [solveStateDp2F]
    by_cases h0 : S.length = 0
    · simp [h0]
    · rw [if_neg h0]
      by_cases h1 : S.length = 1
      · simp [h1]
      · rw [if_neg h1]
        cases hres : guessesDp2 (solveStateDp2F pat fuel) pat S S none with
        | none => simp
        | some r =>
          simp only [Option.getD_some]
          rcases guessesDp2_sound hres with h | ⟨g, _, hr⟩
          · cases h
          · have hs : 0 ≤ sumD (solveStateDp2F pat fuel) (pat g) S (keysOf (pat g) S) :=
              sumD_nonneg fun k _ => ih _
            rw [hr]
            linarith

lemma guessesDp2_eq_NP {rec : List ℕ → ℚ} {pat : PatFn} {S : List ℕ}
    (hrec : ∀ l, 0 ≤ rec l) :
    ∀ (gs : List ℕ) (best : Option ℚ),
      guessesDp2 rec pat S gs best = guessesDp2NP rec pat S gs best := by
  intro gs
  induction gs with
  | nil => intro best; rfl
  | cons g gt ih =>
    intro best
    rw [guessesDp2, guessesDp2NP]
    cases hgo : goDp2 rec (pat g) S best (keysOf (pat g) S) 0 with
    | none =>
      dsimp only
      cases best with
      | none => rw [goDp2_none_start] at hgo; cases hgo
      | some b =>
        have hb : b ≤ 0 + sumD rec (pat g) S (keysOf (pat g) S) :=
          goDp2_none_best (fun k _ => hrec _) hgo
        have hlt : ltBest (some b) (sumD rec (pat g) S (keysOf (pat g) S)) = false := by
          simp only [ltBest, decide_eq_false_iff_not, not_lt]
          linarith
        rw [hlt]
        simp only [Bool.false_eq_true, if_false]
        exact ih _
    | some e =>
      dsimp only
      have he : e = 0 + sumD rec (pat g) S (keysOf (pat g) S) := goDp2_some hgo
      rw [he, zero_add]
      by_cases hlt : ltBest best (sumD rec (pat g) S (keysOf (pat g) S)) = true
      · rw [if_pos hlt, if_pos hlt]
        exact ih _
      · rw [if_neg hlt, if_neg hlt]
        exact ih _

lemma guessesDp2NP_congr {rec₁ rec₂ : List ℕ → ℚ} {pat : PatFn} {S : List ℕ}
    (hrec : ∀ l, rec₁ l = rec₂ l) :
    ∀ (gs : List ℕ) (best : Option ℚ),
      guessesDp2NP rec₁ pat S gs best = guessesDp2NP rec₂ pat S gs best := by
  intro gs
  induction gs with
  | nil => intro best; rfl
  | cons g gt ih =>
    intro best
    rw [guessesDp2NP, guessesDp2NP, sumD_congr fun k _ => hrec _]
    by_cases hlt : ltBest best (sumD rec₂ (pat g) S (keysOf (pat g) S)) = true
    · rw [if_pos hlt, if_pos hlt, ih]
    · rw [if_neg hlt, if_neg hlt, ih]

lemma solveStateDp2F_eq_NPF (pat : PatFn) :
    ∀ (fuel : ℕ) (S : List ℕ),
      solveStateDp2F pat fuel S = solveStateDp2NPF pat fuel S := by
  intro fuel
  induction fuel with
  | zero => intro S; rfl
  | succ fuel ih =>
    intro S
    rw [solveStateDp2F, solveStateDp2NPF]
    by_cases h0 : S.length = 0
    · rw [if_pos h0, if_pos h0]
    · rw [if_neg h0, if_neg h0]
      by_cases h1 : S.length = 1
      · rw [if_pos h1, if_pos h1]
      · rw [if_neg h1, if_neg h1,
          guessesDp2_eq_NP (solveStateDp2F_nonneg pat fuel) S none,
          guessesDp2NP_congr ih S none]

lemma cast_list_sum_q (l : List ℕ) :
    ((l.sum : ℕ) : ℚ) = (l.map fun m : ℕ => (m : ℚ)).sum := by
  induction l with
  | nil => simp
  | cons x xs ih => simp [ih]

lemma sum_cast_lengths {α κ : Type} [DecidableEq κ] (f : α → κ) (S : List α) :
    ((keysOf f S).map fun k => ((bucketOf f S k).length : ℚ)).sum
      = (S.length : ℚ) := by
  have h := sum_bucket_lengths f S
  have h2 := cast_list_sum_q ((keysOf f S).map fun k => (bucketOf f S k).length)
  rw [h, List.map_map] at h2
  exact h2.symm

lemma sumSqLe (l : List ℕ) : (l.map fun m => m * m).sum ≤ l.sum * l.sum := by
  induction l with
  | nil => simp
  | cons x xs ih =>
    simp only [List.map_cons, List.sum_cons]
    calc x * x + (xs.map fun m => m * m).sum
        ≤ x * x + xs.sum * xs.sum := Nat.add_le_add_left ih _
      _ ≤ (x + xs.sum) * (x + xs.sum) := by nlinarith [Nat.zero_le (x * xs.sum)]

lemma sumB_ge {rec : List ℕ → ℚ} {f : ℕ → Pat} {S : List ℕ} :
    ∀ {ks : List Pat}, (∀ k ∈ ks, 1 ≤ rec (bucketOf f S k)) →
      ((ks.map fun k => ((bucketOf f S k).length : ℚ)).sum) / (S.length : ℚ)
        ≤ sumB rec f S ks := by
  intro ks
  induction ks with
  | nil => intro _; simp [sumB_nil]
  | cons k kt ih =>
    intro hrec
    rw [sumB_cons, List.map_cons, List.sum_cons, add_div]
    have hp : (0 : ℚ) ≤ ((bucketOf f S k).length : ℚ) / (S.length : ℚ) :=
      div_nonneg (by positivity) (by positivity)
    have h1 : ((bucketOf f S k).length : ℚ) / (S.length : ℚ)
        ≤ ((bucketOf f S k).length : ℚ) / (S.length : ℚ) * rec (bucketOf f S k) :=
      le_mul_of_one_le_right hp (hrec k (by simp))
    exact add_le_add h1 (ih fun k' hk' => hrec k' (by simp [hk']))

lemma sumB_le {rec : List ℕ → ℚ} {f : ℕ → Pat} {S : List ℕ} :
    ∀ {ks : List Pat},
      (∀ k ∈ ks, 0 ≤ rec (bucketOf f S k)) →
      (∀ k ∈ ks, rec (bucketOf f S k) ≤ ((bucketOf f S k).length : ℚ)) →
      sumB rec f S ks ≤
        ((ks.map fun k =>
          ((bucketOf f S k).length : ℚ) * ((bucketOf f S k).length : ℚ)).sum)
          / (S.length : ℚ) := by
  intro ks
  induction ks with
  | nil => intro _ _; simp [sumB_nil]
  | cons k kt ih =>
    intro h0 hrec
    rw [sumB_cons, List.map_cons, List.sum_cons, add_div]
    have hp : (0 : ℚ) ≤ ((bucketOf f S k).length : ℚ) / (S.length : ℚ) :=
      div_nonneg (by positivity) (by positivity)
    have h1 : ((bucketOf f S k).length : ℚ) / (S.length : ℚ) * rec (bucketOf f S k)
        ≤ ((bucketOf f S k).length : ℚ) * ((bucketOf f S k).length : ℚ) / (S.length : ℚ) := by
      have h2 := mul_le_mul_of_nonneg_left (hrec k (by simp)) hp
      calc ((bucketOf f S k).length : ℚ) / (S.length : ℚ) * rec (bucketOf f S k)
          ≤ ((bucketOf f S k).length : ℚ) / (S.length : ℚ) *
              ((bucketOf f S k).length : ℚ) := h2
        _ = ((bucketOf f S k).length : ℚ) * ((bucketOf f S k).length : ℚ)
              / (S.length : ℚ) := by ring
    exact add_le_add h1
      (ih (fun k' hk' => h0 k' (by simp [hk'])) fun k' hk' => hrec k' (by simp [hk']))

lemma nodup_split_notmem {κ : Type} {u v : List κ} {x : κ}
    (h : (u ++ x :: v).Nodup) : x ∉ u ∧ x ∉ v := by
  rcases List.nodup_append.1 h with ⟨hu, hxv, hdisj⟩
  rcases List.nodup_cons.1 hxv with ⟨hxvmem, hv⟩
  exact ⟨fun hxu => hdisj hxu (by simp), hxvmem⟩

lemma keys_sq_bound {pat : PatFn} {S : List ℕ} {g : ℕ}
    (hsep : SepOn pat S) (hnd : S.Nodup) (hg : g ∈ S) :
    ((keysOf (pat g) S).map fun k =>
      (bucketOf (pat g) S k).length * (bucketOf (pat g) S k).length).sum
      ≤ 1 + (S.length - 1) * (S.length - 1) := by
  obtain ⟨u, v, huv⟩ := List.append_of_mem (allC_mem_keysOf hsep hg)
  have hlenallC : (bucketOf (pat g) S allC).length = 1 := by
    rw [bucketOf_allC_eq hsep hnd hg]
    rfl
  have hsum := sum_bucket_lengths (pat g) S
  rw [huv] at hsum
  simp only [List.map_append, List.map_cons, List.sum_append, List.sum_cons,
    hlenallC] at hsum
  rw [huv]
  simp only [List.map_append, List.map_cons, List.sum_append, List.sum_cons,
    hlenallC, one_mul]
  set A := (u.map fun k => (bucketOf (pat g) S k).length).sum with hA
  set B := (v.map fun k => (bucketOf (pat g) S k).length).sum with hB
  have hAq : (u.map fun k =>
      (bucketOf (pat g) S k).length * (bucketOf (pat g) S k).length).sum
      ≤ A * A := by
    have h := sumSqLe (u.map fun k => (bucketOf (pat g) S k).length)
    rw [List.map_map] at h
    exact h
  have hBq : (v.map fun k =>
      (bucketOf (pat g) S k).length * (bucketOf (pat g) S k).length).sum
      ≤ B * B := by
    have h := sumSqLe (v.map fun k => (bucketOf (pat g) S k).length)
    rw [List.map_map] at h
    exact h
  have hAB : A + B = S.length - 1 := by omega
  have hsq : A * A + B * B ≤ (A + B) * (A + B) := by nlinarith [Nat.zero_le (A * B)]
  calc (u.map fun k =>
        (bucketOf (pat g) S k).length * (bucketOf (pat g) S k).length).sum
        + (1 + (v.map fun k =>
            (bucketOf (pat g) S k).length * (bucketOf (pat g) S k).length).sum)
      ≤ A * A + (1 + B * B) := by omega
    _ ≤ 1 + (A + B) * (A + B) := by omega
    _ = 1 + (S.length - 1) * (S.length - 1) := by rw [hAB]

lemma solveStateMainF_bounds (pat : PatFn) :
    ∀ (fuel : ℕ) (S : List ℕ), S.Nodup → SepOn pat S → 1 ≤ S.length →
      S.length ≤ fuel →
      1 ≤ solveStateMainF pat fuel S ∧
        solveStateMainF pat fuel S ≤ (S.length : ℚ) ∧
        (2 ≤ S.length → 2 ≤ solveStateMainF pat fuel S) := by
  intro fuel
  induction fuel with
  | zero =>
    intro S _ _ h1 h2
    omega
  | succ fuel ih =>
    intro S hnd hsep h1 h2
    rw [solveStateMainF]
    by_cases h0 : S.length = 0
    · omega
    rw [if_neg h0]
    by_cases hone : S.length = 1
    · rw [if_pos hone, hone]
      refine ⟨le_refl 1, by norm_num, ?_⟩
      omega
    rw [if_neg hone]
    have h2le : 2 ≤ S.length := by omega
    -- facts holding for every guess g in S and every bucket of that guess
    have hbucket : ∀ g ∈ S, ∀ k ∈ keysOf (pat g) S,
        1 ≤ solveStateMainF pat fuel (bucketOf (pat g) S k) ∧
          solveStateMainF pat fuel (bucketOf (pat g) S k)
            ≤ ((bucketOf (pat g) S k).length : ℚ) := by
      intro g hgS k hk
      have hsub := bucketOf_subset (pat g) S k
      have hlt := bucketOf_length_lt hsep hnd hgS h2le hk
      have h := ih (bucketOf (pat g) S k) (hnd.filter _) (hsep.mono hsub)
        (bucketOf_length_pos hk) (by omega)
      exact ⟨h.1, h.2.1⟩
    -- lower bound on the cost of any guess
    have hcost_lo : ∀ g ∈ S,
        2 ≤ 1 + sumB (solveStateMainF pat fuel) (pat g) S (keysOf (pat g) S) := by
      intro g hgS
      have hge := @sumB_ge (solveStateMainF pat fuel) (pat g) S (keysOf (pat g) S)
        fun k hk => (hbucket g hgS k hk).1
      rw [sum_cast_lengths] at hge
      have hn : (0 : ℚ) < (S.length : ℚ) := by
        have : 0 < S.length := by omega
        exact_mod_cast this
      rw [div_self (ne_of_gt hn)] at hge
      linarith
    obtain ⟨g0, rest, hS⟩ : ∃ g0 rest, S = g0 :: rest :=
      List.exists_cons_of_ne_nil fun h => h0 (by simp [h])
    have hg0S : g0 ∈ S := by rw [hS]; simp
    -- the guess loop starts with S itself as guess list
    have hhead := @guessesMain_head (solveStateMainF pat fuel) pat S g0 rest
    rw [← hS] at hhead
    rcases hhead with ⟨r, hr, hrle⟩
    rw [hr, Option.getD_some]
    -- the result is the cost of some guess
    rcases guessesMain_sound hr with habs | ⟨g, hgS, hrc⟩
    · cases habs
    constructor
    · rw [hrc]
      linarith [hcost_lo g hgS]
    constructor
    · -- upper bound via the head guess
      have hle := @sumB_le (solveStateMainF pat fuel) (pat g0) S (keysOf (pat g0) S)
        (fun k hk => by linarith [(hbucket g0 hg0S k hk).1])
        fun k hk => (hbucket g0 hg0S k hk).2
      have hsq := keys_sq_bound (g := g0) hsep hnd hg0S
      have hcast : ((keysOf (pat g0) S).map fun k =>
          ((bucketOf (pat g0) S k).length : ℚ) * ((bucketOf (pat g0) S k).length : ℚ)).sum
          = ((((keysOf (pat g0) S).map fun k =>
              (bucketOf (pat g0) S k).length * (bucketOf (pat g0) S k).length).sum : ℕ) : ℚ) := by
        rw [cast_list_sum_q, List.map_map]
        refine congrArg List.sum (List.map_congr_left ?_)
        intro k _
        simp only [Function.comp_apply]
        push_cast
        ring
      have hn : (0 : ℚ) < (S.length : ℚ) := by
        have hpos : 0 < S.length := by omega
        exact_mod_cast hpos
      have hsqq : ((((keysOf (pat g0) S).map fun k =>
          (bucketOf (pat g0) S k).length * (bucketOf (pat g0) S k).length).sum : ℕ) : ℚ)
          ≤ 1 + ((S.length : ℚ) - 1) * ((S.length : ℚ) - 1) := by
        have hc : (((1 + (S.length - 1) * (S.length - 1) : ℕ)) : ℚ)
            = 1 + ((S.length : ℚ) - 1) * ((S.length : ℚ) - 1) := by
          have h1n : (1 : ℕ) ≤ S.length := h1
          push_cast [Nat.cast_sub h1n]
          ring
        calc ((((keysOf (pat g0) S).map fun k =>
            (bucketOf (pat g0) S k).length * (bucketOf (pat g0) S k).length).sum : ℕ) : ℚ)
            ≤ (((1 + (S.length - 1) * (S.length - 1) : ℕ)) : ℚ) := by exact_mod_cast hsq
          _ = 1 + ((S.length : ℚ) - 1) * ((S.length : ℚ) - 1) := hc
      have hnq : (2 : ℚ) ≤ (S.length : ℚ) := by exact_mod_cast h2le
      have hdiv : sumB (solveStateMainF pat fuel) (pat g0) S (keysOf (pat g0) S)
          ≤ (1 + ((S.length : ℚ) - 1) * ((S.length : ℚ) - 1)) / (S.length : ℚ) := by
        calc sumB (solveStateMainF pat fuel) (pat g0) S (keysOf (pat g0) S)
            ≤ ((keysOf (pat g0) S).map fun k =>
                ((bucketOf (pat g0) S k).length : ℚ)
                  * ((bucketOf (pat g0) S k).length : ℚ)).sum / (S.length : ℚ) := hle
          _ ≤ (1 + ((S.length : ℚ) - 1) * ((S.length : ℚ) - 1)) / (S.length : ℚ) := by
              rw [hcast]
              exact div_le_div_of_nonneg_right hsqq (le_of_lt hn)
      have hlast : (1 + ((S.length : ℚ) - 1) * ((S.length : ℚ) - 1)) / (S.length : ℚ)
          ≤ (S.length : ℚ) - 1 := by
        rw [div_le_iff₀ hn]
        nlinarith
      calc r ≤ 1 + sumB (solveStateMainF pat fuel) (pat g0) S (keysOf (pat g0) S) := hrle
        _ ≤ 1 + (1 + ((S.length : ℚ) - 1) * ((S.length : ℚ) - 1)) / (S.length : ℚ) := by
            linarith
        _ ≤ 1 + ((S.length : ℚ) - 1) := by linarith
        _ = (S.length : ℚ) := by ring
    · intro _
      rw [hrc]
      linarith [hcost_lo g hgS]

lemma sumD_append (rec : List ℕ → ℚ) (f : ℕ → Pat) (S : List ℕ)
    (ks1 ks2 : List Pat) :
    sumD rec f S (ks1 ++ ks2) = sumD rec f S ks1 + sumD rec f S ks2 := by
  simp [sumD]

lemma sumD_lower_list {rec : List ℕ → ℚ} {f : ℕ → Pat} {S : List ℕ} :
    ∀ {u : List Pat}, (∀ k ∈ u, k ≠ allC) →
      (∀ k ∈ u, 1 ≤ rec (bucketOf f S k)) →
      2 * ((u.map fun k => ((bucketOf f S k).length : ℚ)).sum) / (S.length : ℚ)
        ≤ sumD rec f S u := by
  intro u
  induction u with
  | nil => intro _ _; simp [sumD_nil]
  | cons k kt ih =>
    intro hne hrec
    rw [sumD_cons, if_neg (hne k (by simp)), List.map_cons, List.sum_cons]
    have hp : (0 : ℚ) ≤ ((bucketOf f S k).length : ℚ) / (S.length : ℚ) :=
      div_nonneg (by positivity) (by positivity)
    have hsplit : 2 * (((bucketOf f S k).length : ℚ)
          + ((kt.map fun k' => ((bucketOf f S k').length : ℚ)).sum)) / (S.length : ℚ)
        = 2 * ((bucketOf f S k).length : ℚ) / (S.length : ℚ)
          + 2 * ((kt.map fun k' => ((bucketOf f S k').length : ℚ)).sum) / (S.length : ℚ) := by
      ring
    rw [hsplit]
    have h1 : 2 * ((bucketOf f S k).length : ℚ) / (S.length : ℚ)
        ≤ ((bucketOf f S k).length : ℚ) / (S.length : ℚ) * (1 + rec (bucketOf f S k)) := by
      have h2 : (2 : ℚ) ≤ 1 + rec (bucketOf f S k) := by
        linarith [hrec k (by simp)]
      calc 2 * ((bucketOf f S k).length : ℚ) / (S.length : ℚ)
          = ((bucketOf f S k).length : ℚ) / (S.length : ℚ) * 2 := by ring
        _ ≤ ((bucketOf f S k).length : ℚ) / (S.length : ℚ) * (1 + rec (bucketOf f S k)) :=
            mul_le_mul_of_nonneg_left h2 hp
    exact add_le_add h1
      (ih (fun k' hk' => hne k' (by simp [hk'])) fun k' hk' => hrec k' (by simp [hk']))

lemma sumD_upper_list {rec : List ℕ → ℚ} {f : ℕ → Pat} {S : List ℕ} :
    ∀ {u : List Pat}, (∀ k ∈ u, k ≠ allC) →
      (∀ k ∈ u, 0 ≤ rec (bucketOf f S k)) →
      (∀ k ∈ u, rec (bucketOf f S k) ≤ ((bucketOf f S k).length : ℚ)) →
      sumD rec f S u ≤
        ((u.map fun k => ((bucketOf f S k).length : ℚ)
          + ((bucketOf f S k).length : ℚ) * ((bucketOf f S k).length : ℚ)).sum)
          / (S.length : ℚ) := by
  intro u
  induction u with
  | nil => intro _ _ _; simp [sumD_nil]
  | cons k kt ih =>
    intro hne h0 hrec
    rw [sumD_cons, if_neg (hne k (by simp)), List.map_cons, List.sum_cons, add_div]
    have hp : (0 : ℚ) ≤ ((bucketOf f S k).length : ℚ) / (S.length : ℚ) :=
      div_nonneg (by positivity) (by positivity)
    have h1 : ((bucketOf f S k).length : ℚ) / (S.length : ℚ) * (1 + rec (bucketOf f S k))
        ≤ (((bucketOf f S k).length : ℚ)
            + ((bucketOf f S k).length : ℚ) * ((bucketOf f S k).length : ℚ)) / (S.length : ℚ) := by
      have h2 : 1 + rec (bucketOf f S k) ≤ 1 + ((bucketOf f S k).length : ℚ) := by
        linarith [hrec k (by simp)]
      calc ((bucketOf f S k).length : ℚ) / (S.length : ℚ) * (1 + rec (bucketOf f S k))
          ≤ ((bucketOf f S k).length : ℚ) / (S.length : ℚ)
              * (1 + ((bucketOf f S k).length : ℚ)) :=
            mul_le_mul_of_nonneg_left h2 hp
        _ = (((bucketOf f S k).length : ℚ)
              + ((bucketOf f S k).length : ℚ) * ((bucketOf f S k).length : ℚ))
              / (S.length : ℚ) := by ring
    exact add_le_add h1
      (ih (fun k' hk' => hne k' (by simp [hk']))
        (fun k' hk' => h0 k' (by simp [hk']))
        fun k' hk' => hrec k' (by simp [hk']))

lemma solveStateDp2F_bounds (pat : PatFn) :
    ∀ (fuel : ℕ) (S : List ℕ), S.Nodup → SepOn pat S → 1 ≤ S.length →
      S.length ≤ fuel →
      1 ≤ solveStateDp2F pat fuel S ∧
        solveStateDp2F pat fuel S ≤ (S.length : ℚ) ∧
        (2 ≤ S.length → 1 < solveStateDp2F pat fuel S) := by
  intro fuel
  induction fuel with
  | zero =>
    intro S _ _ h1 h2
    omega
  | succ fuel ih =>
    intro S hnd hsep h1 h2
    rw [solveStateDp2F]
    by_cases h0 : S.length = 0
    · omega
    rw [if_neg h0]
    by_cases hone : S.length = 1
    · rw [if_pos hone, hone]
      refine ⟨le_refl 1, by norm_num, ?_⟩
      omega
    rw [if_neg hone]
    have h2le : 2 ≤ S.length := by omega
    have hn : (0 : ℚ) < (S.length : ℚ) := by
      have hpos : 0 < S.length := by omega
      exact_mod_cast hpos
    have hnq : (2 : ℚ) ≤ (S.length : ℚ) := by exact_mod_cast h2le
    have hbucket : ∀ g ∈ S, ∀ k ∈ keysOf (pat g) S,
        1 ≤ solveStateDp2F pat fuel (bucketOf (pat g) S k) ∧
          solveStateDp2F pat fuel (bucketOf (pat g) S k)
            ≤ ((bucketOf (pat g) S k).length : ℚ) := by
      intro g hgS k hk
      have hsub := bucketOf_subset (pat g) S k
      have hlt := bucketOf_length_lt hsep hnd hgS h2le hk
      have h := ih (bucketOf (pat g) S k) (hnd.filter _) (hsep.mono hsub)
        (bucketOf_length_pos hk) (by omega)
      exact ⟨h.1, h.2.1⟩
    -- cost of any guess g is at least (2·|S| - 1)/|S| > 1
    have hcost_lo : ∀ g ∈ S,
        (2 * (S.length : ℚ) - 1) / (S.length : ℚ)
          ≤ sumD (solveStateDp2F pat fuel) (pat g) S (keysOf (pat g) S) := by
      intro g hgS
      obtain ⟨u, v, huv⟩ := List.append_of_mem (allC_mem_keysOf hsep hgS)
      have hnodup : (keysOf (pat g) S).Nodup := by
        rw [keysOf]
        exact nodup_dedupFirst _
      rw [huv] at hnodup
      rcases nodup_split_notmem hnodup with ⟨hu, hv⟩
      have hmemu : ∀ k ∈ u, k ∈ keysOf (pat g) S := by
        intro k hk; rw [huv]; simp [hk]
      have hmemv : ∀ k ∈ v, k ∈ keysOf (pat g) S := by
        intro k hk; rw [huv]; simp [hk]
      have hlenallC : (bucketOf (pat g) S allC).length = 1 := by
        rw [bucketOf_allC_eq hsep hnd hgS]
        rfl
      have hsum := sum_bucket_lengths (pat g) S
      rw [huv] at hsum
      simp only [List.map_append, List.map_cons, List.sum_append, List.sum_cons,
        hlenallC] at hsum
      -- split the cost sum
      rw [huv, sumD_append, sumD_cons, if_pos rfl, hlenallC]
      have hlou := @sumD_lower_list (solveStateDp2F pat fuel) (pat g) S u
        (fun k hk => fun hkc => hu (hkc ▸ hk))
        fun k hk => (hbucket g hgS k (hmemu k hk)).1
      have hlov := @sumD_lower_list (solveStateDp2F pat fuel) (pat g) S v
        (fun k hk => fun hkc => hv (hkc ▸ hk))
        fun k hk => (hbucket g hgS k (hmemv k hk)).1
      have hcastu : ((u.map fun k => ((bucketOf (pat g) S k).length : ℚ)).sum)
          = (((u.map fun k => (bucketOf (pat g) S k).length).sum : ℕ) : ℚ) := by
        rw [cast_list_sum_q, List.map_map]
        rfl
      have hcastv : ((v.map fun k => ((bucketOf (pat g) S k).length : ℚ)).sum)
          = (((v.map fun k => (bucketOf (pat g) S k).length).sum : ℕ) : ℚ) := by
        rw [cast_list_sum_q, List.map_map]
        rfl
      set A := (u.map fun k => (bucketOf (pat g) S k).length).sum with hA
      set B := (v.map fun k => (bucketOf (pat g) S k).length).sum with hB
      have hABn : A + B + 1 = S.length := by omega
      have hABq : ((A : ℚ) + (B : ℚ)) + 1 = (S.length : ℚ) := by
        exact_mod_cast hABn
      have htotal : 2 * (A : ℚ) / (S.length : ℚ) + (1 : ℚ) / (S.length : ℚ) * 1
            + 2 * (B : ℚ) / (S.length : ℚ)
          = (2 * (S.length : ℚ) - 1) / (S.length : ℚ) := by
        field_simp
        linarith [hABq]
      rw [hcastu] at hlou
      rw [hcastv] at hlov
      have hgoal : (2 * (S.length : ℚ) - 1) / (S.length : ℚ)
          ≤ sumD (solveStateDp2F pat fuel) (pat g) S u
            + ((1 : ℚ) / (S.length : ℚ) * 1
              + sumD (solveStateDp2F pat fuel) (pat g) S v) := by
        rw [← htotal]
        linarith [hlou, hlov]
      convert hgoal using 2
    obtain ⟨g0, rest, hS⟩ : ∃ g0 rest, S = g0 :: rest :=
      List.exists_cons_of_ne_nil fun h => h0 (by simp [h])
    have hg0S : g0 ∈ S := by rw [hS]; simp
    have hhead := @guessesDp2_head (solveStateDp2F pat fuel) pat S g0 rest
    rw [← hS] at hhead
    rcases hhead with ⟨r, hr, hrle⟩
    rw [hr, Option.getD_some]
    rcases guessesDp2_sound hr with habs | ⟨g, hgS, hrc⟩
    · cases habs
    have hlow : (2 * (S.length : ℚ) - 1) / (S.length : ℚ) ≤ r := by
      rw [hrc]
      exact hcost_lo g hgS
    have hlow1 : 1 < (2 * (S.length : ℚ) - 1) / (S.length : ℚ) := by
      rw [lt_div_iff₀ hn]
      linarith
    refine ⟨by linarith, ?_, fun _ => by linarith⟩
    -- upper bound via the head guess
    obtain ⟨u, v, huv⟩ := List.append_of_mem (allC_mem_keysOf hsep hg0S)
    have hnodup : (keysOf (pat g0) S).Nodup := by
      rw [keysOf]
      exact nodup_dedupFirst _
    rw [huv] at hnodup
    rcases nodup_split_notmem hnodup with ⟨hu, hv⟩
    have hmemu : ∀ k ∈ u, k ∈ keysOf (pat g0) S := by
      intro k hk; rw [huv]; simp [hk]
    have hmemv : ∀ k ∈ v, k ∈ keysOf (pat g0) S := by
      intro k hk; rw [huv]; simp [hk]
    have hlenallC : (bucketOf (pat g0) S allC).length = 1 := by
      rw [bucketOf_allC_eq hsep hnd hg0S]
      rfl
    have hsum := sum_bucket_lengths (pat g0) S
    rw [huv] at hsum
    simp only [List.map_append, List.map_cons, List.sum_append, List.sum_cons,
      hlenallC] at hsum
    have hhiu := @sumD_upper_list (solveStateDp2F pat fuel) (pat g0) S u
      (fun k hk => fun hkc => hu (hkc ▸ hk))
      (fun k hk => by linarith [(hbucket g0 hg0S k (hmemu k hk)).1])
      fun k hk => (hbucket g0 hg0S k (hmemu k hk)).2
    have hhiv := @sumD_upper_list (solveStateDp2F pat fuel) (pat g0) S v
      (fun k hk => fun hkc => hv (hkc ▸ hk))
      (fun k hk => by linarith [(hbucket g0 hg0S k (hmemv k hk)).1])
      fun k hk => (hbucket g0 hg0S k (hmemv k hk)).2
    -- cast the numerators to natural sums and bound them
    have hcastu : ((u.map fun k => ((bucketOf (pat g0) S k).length : ℚ)
        + ((bucketOf (pat g0) S k).length : ℚ) * ((bucketOf (pat g0) S k).length : ℚ)).sum)
        = (((u.map fun k => (bucketOf (pat g0) S k).length
            + (bucketOf (pat g0) S k).length * (bucketOf (pat g0) S k).length).sum : ℕ) : ℚ) := by
      rw [cast_list_sum_q, List.map_map]
      refine congrArg List.sum (List.map_congr_left ?_)
      intro k _
      simp only [Function.comp_apply]
      push_cast
      ring
    have hcastv : ((v.map fun k => ((bucketOf (pat g0) S k).length : ℚ)
        + ((bucketOf (pat g0) S k).length : ℚ) * ((bucketOf (pat g0) S k).length : ℚ)).sum)
        = (((v.map fun k => (bucketOf (pat g0) S k).length
            + (bucketOf (pat g0) S k).length * (bucketOf (pat g0) S k).length).sum : ℕ) : ℚ) := by
      rw [cast_list_sum_q, List.map_map]
      refine congrArg List.sum (List.map_congr_left ?_)
      intro k _
      simp only [Function.comp_apply]
      push_cast
      ring
    set A := (u.map fun k => (bucketOf (pat g0) S k).length).sum with hA
    set B := (v.map fun k => (bucketOf (pat g0) S k).length).sum with hB
    have hsqu : (u.map fun k => (bucketOf (pat g0) S k).length
        + (bucketOf (pat g0) S k).length * (bucketOf (pat g0) S k).length).sum
        ≤ A + A * A := by
      have hsplit : (u.map fun k => (bucketOf (pat g0) S k).length
          + (bucketOf (pat g0) S k).length * (bucketOf (pat g0) S k).length).sum
          = A + (u.map fun k =>
              (bucketOf (pat g0) S k).length * (bucketOf (pat g0) S k).length).sum :=
        sum_map_split u _ _
      have hq : (u.map fun k =>
          (bucketOf (pat g0) S k).length * (bucketOf (pat g0) S k).length).sum ≤ A * A := by
        have h := sumSqLe (u.map fun k => (bucketOf (pat g0) S k).length)
        rw [List.map_map] at h
        exact h
      omega
    have hsqv : (v.map fun k => (bucketOf (pat g0) S k).length
        + (bucketOf (pat g0) S k).length * (bucketOf (pat g0) S k).length).sum
        ≤ B + B * B := by
      have hsplit : (v.map fun k => (bucketOf (pat g0) S k).length
          + (bucketOf (pat g0) S k).length * (bucketOf (pat g0) S k).length).sum
          = B + (v.map fun k =>
              (bucketOf (pat g0) S k).length * (bucketOf (pat g0) S k).length).sum :=
        sum_map_split v _ _
      have hq : (v.map fun k =>
          (bucketOf (pat g0) S k).length * (bucketOf (pat g0) S k).length).sum ≤ B * B := by
        have h := sumSqLe (v.map fun k => (bucketOf (pat g0) S k).length)
        rw [List.map_map] at h
        exact h
      omega
    have hABn : A + B + 1 = S.length := by omega
    -- the full cost of the head guess
    have hcost : sumD (solveStateDp2F pat fuel) (pat g0) S (keysOf (pat g0) S)
        ≤ (S.length : ℚ) := by
      rw [huv, sumD_append, sumD_cons, if_pos rfl, hlenallC]
      have hnum : ((A + A * A : ℕ) : ℚ) + 1 + ((B + B * B : ℕ) : ℚ)
          ≤ (S.length : ℚ) * (S.length : ℚ) := by
        have hnat : A + A * A + 1 + (B + B * B) ≤ S.length * S.length := by
          have hAB : A + B = S.length - 1 := by omega
          nlinarith [sq_nonneg (A - B), Nat.zero_le (A * B), hABn]
        exact_mod_cast hnat
      have hchain : sumD (solveStateDp2F pat fuel) (pat g0) S u
          + ((1 : ℚ) / (S.length : ℚ) * 1 + sumD (solveStateDp2F pat fuel) (pat g0) S v)
          ≤ (((A + A * A : ℕ) : ℚ) + 1 + ((B + B * B : ℕ) : ℚ)) / (S.length : ℚ) := by
        rw [hcastu] at hhiu
        rw [hcastv] at hhiv
        have hdivu : (((u.map fun k => (bucketOf (pat g0) S k).length
            + (bucketOf (pat g0) S k).length * (bucketOf (pat g0) S k).length).sum : ℕ) : ℚ)
            / (S.length : ℚ) ≤ ((A + A * A : ℕ) : ℚ) / (S.length : ℚ) := by
          apply div_le_div_of_nonneg_right ?_ (le_of_lt hn)
          exact_mod_cast hsqu
        have hdivv : (((v.map fun k => (bucketOf (pat g0) S k).length
            + (bucketOf (pat g0) S k).length * (bucketOf (pat g0) S k).length).sum : ℕ) : ℚ)
            / (S.length : ℚ) ≤ ((B + B * B : ℕ) : ℚ) / (S.length : ℚ) := by
          apply div_le_div_of_nonneg_right ?_ (le_of_lt hn)
          exact_mod_cast hsqv
        have hfr : (((A + A * A : ℕ) : ℚ) + 1 + ((B + B * B : ℕ) : ℚ)) / (S.length : ℚ)
            = ((A + A * A : ℕ) : ℚ) / (S.length : ℚ) + (1 : ℚ) / (S.length : ℚ)
              + ((B + B * B : ℕ) : ℚ) / (S.length : ℚ) := by
          ring
        rw [hfr]
        have hone_div : (1 : ℚ) / (S.length : ℚ) * 1 = (1 : ℚ) / (S.length : ℚ) := by ring
        linarith [le_trans hhiu hdivu, le_trans hhiv hdivv]
      have hlaststep : (((A + A * A : ℕ) : ℚ) + 1 + ((B + B * B : ℕ) : ℚ)) / (S.length : ℚ)
          ≤ (S.length : ℚ) := by
        rw [div_le_iff₀ hn]
        linarith [hnum]
      calc sumD (solveStateDp2F pat fuel) (pat g0) S u
            + ((1 : ℚ) / (S.length : ℚ) * 1 + sumD (solveStateDp2F pat fuel) (pat g0) S v)
          ≤ (((A + A * A : ℕ) : ℚ) + 1 + ((B + B * B : ℕ) : ℚ)) / (S.length : ℚ) := hchain
        _ ≤ (S.length : ℚ) := hlaststep
    calc r ≤ sumD (solveStateDp2F pat fuel) (pat g0) S (keysOf (pat g0) S) := hrle
      _ ≤ (S.length : ℚ) := hcost

lemma solveStateMainF_stable (pat : PatFn) :
    ∀ (n f1 f2 : ℕ) (S : List ℕ), S.Nodup → SepOn pat S →
      S.length ≤ f1 → S.length ≤ f2 → f1 ≤ n → f2 ≤ n →
      solveStateMainF pat f1 S = solveStateMainF pat f2 S := by
  intro n
  induction n with
  | zero =>
    intro f1 f2 S _ _ h1 h2 hn1 hn2
    have hf1 : f1 = 0 := by omega
    have hf2 : f2 = 0 := by omega
    rw [hf1, hf2]
  | succ n ih =>
    intro f1 f2 S hnd hsep h1 h2 hn1 hn2
    cases f1 with
    | zero =>
      cases f2 with
      | zero => rfl
      | succ f2' =>
        have hS : S = [] := List.length_eq_zero.1 (by omega)
        subst hS
        rw [solveStateMainF, solveStateMainF]
        simp
    | succ f1' =>
      cases f2 with
      | zero =>
        have hS : S = [] := List.length_eq_zero.1 (by omega)
        subst hS
        rw [solveStateMainF, solveStateMainF]
        simp
      | succ f2' =>
        rw [solveStateMainF, solveStateMainF]
        by_cases h0 : S.length = 0
        · rw [if_pos h0, if_pos h0]
        rw [if_neg h0, if_neg h0]
        by_cases hone : S.length = 1
        · rw [if_pos hone, if_pos hone]
        rw [if_neg hone, if_neg hone]
        have h2le : 2 ≤ S.length := by omega
        have hg : guessesMain (solveStateMainF pat f1') pat S S none
            = guessesMain (solveStateMainF pat f2') pat S S none := by
          apply guessesMain_congr
          intro g hgS k hk
          have hlt := bucketOf_length_lt hsep hnd hgS h2le hk
          exact ih f1' f2' (bucketOf (pat g) S k) (hnd.filter _)
            (hsep.mono (bucketOf_subset _ _ _)) (by omega) (by omega)
            (by omega) (by omega)
        rw [hg]

lemma solveStateMainF_eq_pure (pat : PatFn) {fuel : ℕ} {S : List ℕ}
    (hnd : S.Nodup) (hsep : SepOn pat S) (hf : S.length ≤ fuel) :
    solveStateMainF pat fuel S = solveTailPure pat S := by
  rw [solveTailPure]
  exact solveStateMainF_stable pat (max fuel (S.length + 1)) fuel (S.length + 1) S
    hnd hsep hf (by omega) (by omega) (by omega)

lemma memoOK_nil (pat : PatFn) : MemoOK pat [] := by
  intro e he
  cases he

lemma memoOK_store {pat : PatFn} {m : Memo} {cap toRem : ℕ} {k : List ℕ} {v : ℚ}
    (hm : MemoOK pat m) (hv : v = solveTailPure pat k) :
    MemoOK pat (memoStore cap toRem m k v) := by
  intro e he
  rcases List.mem_append.1 he with h | h
  · have hmem : e ∈ m := by
      by_cases hc : cap ≤ m.length
      · rw [if_pos hc] at h
        exact List.drop_subset _ _ h
      · rw [if_neg hc] at h
        exact h
    exact hm e hmem
  · have he2 : e = (k, v) := by simpa using h
    rw [he2]
    exact hv

lemma memoGet_some {pat : PatFn} {m : Memo} {k : List ℕ} {v : ℚ}
    (hm : MemoOK pat m) (h : memoGet m k = some v) :
    v = solveTailPure pat k := by
  rw [memoGet] at h
  rcases Option.map_eq_some'.1 h with ⟨e, he, rfl⟩
  have hfind := List.find?_some he
  have hmem := List.mem_of_find?_eq_some he
  have hk : e.1 = k := by simpa using hfind
  rw [← hk]
  exact hm e hmem

lemma goTail_correct {pat : PatFn} {cap toRem fuel : ℕ} {f : ℕ → Pat}
    {S : List ℕ} {best : Option ℚ}
    (hrec : ∀ (b : List ℕ) (m' : Memo), b.Nodup → SepOn pat b →
      b.length ≤ fuel → MemoOK pat m' →
      (solveTailMemoF pat cap toRem fuel b m').1 = solveTailPure pat b ∧
        MemoOK pat (solveTailMemoF pat cap toRem fuel b m').2) :
    ∀ (ks : List Pat) (acc : ℚ) (m : Memo), MemoOK pat m →
      (∀ k ∈ ks, (bucketOf f S k).Nodup ∧ SepOn pat (bucketOf f S k) ∧
        (bucketOf f S k).length ≤ fuel) →
      ∃ m2, goTail (solveTailMemoF pat cap toRem fuel) f S best ks acc m
        = (goMain (solveTailPure pat) f S best ks acc, m2) ∧ MemoOK pat m2 := by
  intro ks
  induction ks with
  | nil =>
    intro acc m hm _
    exact ⟨m, rfl, hm⟩
  | cons k kt ih =>
    intro acc m hm hks
    rcases hks k (by simp) with ⟨hbnd, hbsep, hbf⟩
    rcases hrec (bucketOf f S k) m hbnd hbsep hbf hm with ⟨hval, hok⟩
    rw [goTail, goMain]
    rw [show solveTailMemoF pat cap toRem fuel (bucketOf f S k) m
        = ((solveTailMemoF pat cap toRem fuel (bucketOf f S k) m).1,
           (solveTailMemoF pat cap toRem fuel (bucketOf f S k) m).2) from rfl,
      hval]
    dsimp only
    by_cases hp : pruneMain best
        (acc + ((bucketOf f S k).length : ℚ) / (S.length : ℚ)
          * solveTailPure pat (bucketOf f S k)) = true
    · rw [if_pos hp, if_pos hp]
      exact ⟨_, rfl, hok⟩
    · rw [if_neg hp, if_neg hp]
      exact ih _ _ hok fun k' hk' => hks k' (by simp [hk'])

lemma guessesTail_correct {pat : PatFn} {cap toRem fuel : ℕ} {S : List ℕ}
    (hrec : ∀ (b : List ℕ) (m' : Memo), b.Nodup → SepOn pat b →
      b.length ≤ fuel → MemoOK pat m' →
      (solveTailMemoF pat cap toRem fuel b m').1 = solveTailPure pat b ∧
        MemoOK pat (solveTailMemoF pat cap toRem fuel b m').2) :
    ∀ (gs : List ℕ) (best : Option ℚ) (m : Memo), MemoOK pat m →
      (∀ g ∈ gs, ∀ k ∈ keysOf (pat g) S, (bucketOf (pat g) S k).Nodup ∧
        SepOn pat (bucketOf (pat g) S k) ∧ (bucketOf (pat g) S k).length ≤ fuel) →
      ∃ m2, guessesTail (solveTailMemoF pat cap toRem fuel) pat S gs best m
        = (guessesMain (solveTailPure pat) pat S gs best, m2) ∧ MemoOK pat m2 := by
  intro gs
  induction gs with
  | nil =>
    intro best m hm _
    exact ⟨m, rfl, hm⟩
  | cons g gt ih =>
    intro best m hm hgs
    obtain ⟨m2, hgo, hm2⟩ := goTail_correct hrec (keysOf (pat g) S) 0 m hm
      fun k hk => hgs g (by simp) k hk
    rw [guessesTail, guessesMain, hgo]
    cases hX : goMain (solveTailPure pat) (pat g) S best (keysOf (pat g) S) 0 with
    | none =>
      dsimp only
      exact ih best m2 hm2 fun g' hg' => hgs g' (by simp [hg'])
    | some e =>
      dsimp only
      by_cases hlt : ltBest best (1 + e) = true
      · rw [if_pos hlt, if_pos hlt]
        exact ih _ m2 hm2 fun g' hg' => hgs g' (by simp [hg'])
      · rw [if_neg hlt, if_neg hlt]
        exact ih _ m2 hm2 fun g' hg' => hgs g' (by simp [hg'])

lemma solveTailMemoF_correct (pat : PatFn) (cap toRem : ℕ) :
    ∀ (fuel : ℕ) (S : List ℕ) (m : Memo), S.Nodup → SepOn pat S →
      S.length ≤ fuel → MemoOK pat m →
      (solveTailMemoF pat cap toRem fuel S m).1 = solveTailPure pat S ∧
        MemoOK pat (solveTailMemoF pat cap toRem fuel S m).2 := by
  intro fuel
  induction fuel with
  | zero =>
    intro S m hnd hsep hf hm
    have hS : S = [] := List.length_eq_zero.1 (by omega)
    subst hS
    constructor
    · rw [solveTailMemoF, solveTailPure, solveStateMainF]
      simp
    · exact hm
  | succ fuel ih =>
    intro S m hnd hsep hf hm
    rw [solveTailMemoF]
    by_cases h0 : S.length = 0
    · rw [if_pos h0]
      have hS : S = [] := List.length_eq_zero.1 h0
      subst hS
      constructor
      · rw [solveTailPure, solveStateMainF]
        simp
      · exact hm
    rw [if_neg h0]
    by_cases hone : S.length = 1
    · rw [if_pos hone]
      constructor
      · rw [solveTailPure, hone, solveStateMainF]
        rw [if_neg h0, if_pos hone]
      · exact hm
    rw [if_neg hone]
    have h2le : 2 ≤ S.length := by omega
    cases hget : memoGet m S with
    | some v =>
      dsimp only
      exact ⟨memoGet_some hm hget, hm⟩
    | none =>
      dsimp only
      have hbuckets : ∀ g ∈ S, ∀ k ∈ keysOf (pat g) S,
          (bucketOf (pat g) S k).Nodup ∧ SepOn pat (bucketOf (pat g) S k) ∧
            (bucketOf (pat g) S k).length ≤ fuel := by
        intro g hgS k hk
        have hlt := bucketOf_length_lt hsep hnd hgS h2le hk
        have hfuel : (bucketOf (pat g) S k).length ≤ fuel :=
          Nat.lt_succ_iff.1 (lt_of_lt_of_le hlt hf)
        exact ⟨hnd.filter _, hsep.mono (bucketOf_subset _ _ _), hfuel⟩
      obtain ⟨m2, hgt, hm2⟩ := guessesTail_correct ih S none m hm hbuckets
      rw [hgt]
      dsimp only
      have hpure : (guessesMain (solveTailPure pat) pat S S none).getD 0
          = solveTailPure pat S := by
        have hunf : solveTailPure pat S
            = (guessesMain (solveStateMainF pat S.length) pat S S none).getD 0 := by
          rw [solveTailPure]
          rw [show S.length + 1 = S.length + 1 from rfl, solveStateMainF]
          rw [if_neg h0, if_neg hone]
        rw [hunf]
        have hcong : guessesMain (solveTailPure pat) pat S S none
            = guessesMain (solveStateMainF pat S.length) pat S S none := by
          apply guessesMain_congr
          intro g hgS k hk
          have hlt := bucketOf_length_lt hsep hnd hgS h2le hk
          exact (solveStateMainF_eq_pure pat (hnd.filter _)
            (hsep.mono (bucketOf_subset _ _ _)) (Nat.le_of_lt hlt)).symm
        rw [hcong]
      exact ⟨hpure, memoOK_store hm2 hpure⟩

lemma solveStateMain_singleton (pat : PatFn) (x : ℕ) :
    solveStateMain pat [x] = 1 := by
  rw [solveStateMain, solveStateMainF]
  simp

lemma solveTailPure_singleton (pat : PatFn) (x : ℕ) :
    solveTailPure pat [x] = 1 := by
  rw [solveTailPure, solveStateMainF]
  simp

lemma solveStateTop_singleton (pat : PatFn) (x : ℕ) :
    solveStateTop pat [x] = 1 := by
  rw [solveStateTop, solveStateTopF]
  simp

lemma solveStateMainNPF_singleton (pat : PatFn) (f : ℕ) (x : ℕ) :
    solveStateMainNPF pat (f + 1) [x] = 1 := by
  rw [solveStateMainNPF]
  simp

lemma solveStateDp2NPF_singleton (pat : PatFn) (f : ℕ) (x : ℕ) :
    solveStateDp2NPF pat (f + 1) [x] = 1 := by
  rw [solveStateDp2NPF]
  simp

lemma solveStateTopF_singleton (pat : PatFn) (f : ℕ) (x : ℕ) :
    solveStateTopF pat (f + 1) [x] = 1 := by
  rw [solveStateTopF]
  simp

lemma dedupFirst_pair {κ : Type} [DecidableEq κ] {x y : κ} (h : y ≠ x) :
    dedupFirst [x, y] = [x, y] := by
  rw [show dedupFirst [x, y] = dedupFirstAux 2 [x, y] from rfl,
    dedupFirstAux,
    show ([y].filter fun z => decide (¬z = x)) = [y] from by simp [h],
    dedupFirstAux, dedupFirstAux]

section PairValues

variable {pat : PatFn} {a b : ℕ}

lemma sepOn_pair_facts (hsep : SepOn pat [a, b]) (hab : a ≠ b) :
    pat a a = allC ∧ pat b b = allC ∧ pat a b ≠ allC ∧ pat b a ≠ allC := by
  refine ⟨hsep.1 a (by simp), hsep.1 b (by simp), ?_, ?_⟩
  · intro h
    exact hab (hsep.2 a (by simp) b (by simp) h).symm
  · intro h
    exact hab (hsep.2 b (by simp) a (by simp) h)

lemma keys_pair_a (hsep : SepOn pat [a, b]) (hab : a ≠ b) :
    keysOf (pat a) [a, b] = [allC, pat a b] := by
  obtain ⟨haa, _, hk1, _⟩ := sepOn_pair_facts hsep hab
  rw [keysOf, show List.map (pat a) [a, b] = [pat a a, pat a b] from rfl, haa]
  exact dedupFirst_pair hk1

lemma keys_pair_b (hsep : SepOn pat [a, b]) (hab : a ≠ b) :
    keysOf (pat b) [a, b] = [pat b a, allC] := by
  obtain ⟨_, hbb, _, hk2⟩ := sepOn_pair_facts hsep hab
  rw [keysOf, show List.map (pat b) [a, b] = [pat b a, pat b b] from rfl, hbb]
  exact dedupFirst_pair (Ne.symm hk2)

lemma bucket_pair_a_allC (hsep : SepOn pat [a, b]) (hab : a ≠ b) :
    bucketOf (pat a) [a, b] allC = [a] :=
  bucketOf_allC_eq hsep (by simp [hab]) (by simp)

lemma bucket_pair_a_k1 (hsep : SepOn pat [a, b]) (hab : a ≠ b) :
    bucketOf (pat a) [a, b] (pat a b) = [b] := by
  obtain ⟨haa, _, hk1, _⟩ := sepOn_pair_facts hsep hab
  have h1 : ¬pat a a = pat a b := by
    rw [haa]
    exact fun h => hk1 h.symm
  simp [bucketOf, List.filter, h1]

lemma bucket_pair_b_allC (hsep : SepOn pat [a, b]) (hab : a ≠ b) :
    bucketOf (pat b) [a, b] allC = [b] :=
  bucketOf_allC_eq hsep (by simp [hab]) (by simp)

lemma bucket_pair_b_k2 (hsep : SepOn pat [a, b]) (hab : a ≠ b) :
    bucketOf (pat b) [a, b] (pat b a) = [a] := by
  obtain ⟨_, hbb, _, hk2⟩ := sepOn_pair_facts hsep hab
  have h1 : ¬pat b b = pat b a := by
    rw [hbb]
    exact fun h => hk2 h.symm
  simp [bucketOf, List.filter, h1]

lemma solveStateMain_pair (hsep : SepOn pat [a, b]) (hab : a ≠ b) :
    solveStateMain pat [a, b] = 2 := by
  rw [solveStateMain, solveStateMainF_eq_NPF]
  have hsum_a : sumB (solveStateMainNPF pat 2) (pat a) [a, b]
      (keysOf (pat a) [a, b]) = 1 := by
    rw [keys_pair_a hsep hab, sumB_cons, sumB_cons, sumB_nil,
      bucket_pair_a_allC hsep hab, bucket_pair_a_k1 hsep hab,
      solveStateMainNPF_singleton, solveStateMainNPF_singleton]
    norm_num
  have hsum_b : sumB (solveStateMainNPF pat 2) (pat b) [a, b]
      (keysOf (pat b) [a, b]) = 1 := by
    rw [keys_pair_b hsep hab, sumB_cons, sumB_cons, sumB_nil,
      bucket_pair_b_k2 hsep hab, bucket_pair_b_allC hsep hab,
      solveStateMainNPF_singleton, solveStateMainNPF_singleton]
    norm_num
  rw [show (([a, b] : List ℕ).length + 1) = 3 from rfl, solveStateMainNPF]
  rw [if_neg (by simp), if_neg (by simp)]
  rw [guessesMainNP]
  rw [hsum_a, if_pos (show ltBest none (1 + 1) = true from rfl), guessesMainNP]
  rw [hsum_b, if_neg (by norm_num [ltBest]), guessesMainNP]
  norm_num

lemma solveStateDp2_pair (hsep : SepOn pat [a, b]) (hab : a ≠ b) :
    solveStateDp2 pat [a, b] = 3 / 2 := by
  obtain ⟨haa, hbb, hk1, hk2⟩ := sepOn_pair_facts hsep hab
  rw [solveStateDp2, solveStateDp2F_eq_NPF]
  have hsum_a : sumD (solveStateDp2NPF pat 2) (pat a) [a, b]
      (keysOf (pat a) [a, b]) = 3 / 2 := by
    rw [keys_pair_a hsep hab, sumD_cons, sumD_cons, sumD_nil,
      if_pos rfl, if_neg hk1,
      bucket_pair_a_allC hsep hab, bucket_pair_a_k1 hsep hab,
      solveStateDp2NPF_singleton]
    norm_num
  have hsum_b : sumD (solveStateDp2NPF pat 2) (pat b) [a, b]
      (keysOf (pat b) [a, b]) = 3 / 2 := by
    rw [keys_pair_b hsep hab, sumD_cons, sumD_cons, sumD_nil,
      if_neg hk2, if_pos rfl,
      bucket_pair_b_k2 hsep hab, bucket_pair_b_allC hsep hab,
      solveStateDp2NPF_singleton]
    norm_num
  rw [show (([a, b] : List ℕ).length + 1) = 3 from rfl, solveStateDp2NPF]
  rw [if_neg (by simp), if_neg (by simp)]
  rw [guessesDp2NP]
  rw [hsum_a, if_pos (show ltBest none ((3 : ℚ) / 2) = true from rfl), guessesDp2NP]
  rw [hsum_b, if_neg (by norm_num [ltBest]), guessesDp2NP]
  norm_num

lemma solveStateTop_pair (hsep : SepOn pat [a, b]) (hab : a ≠ b) :
    solveStateTop pat [a, b] = 3 / 2 := by
  obtain ⟨haa, hbb, hk1, hk2⟩ := sepOn_pair_facts hsep hab
  have hBa := bucket_pair_a_k1 hsep hab
  have hBb := bucket_pair_b_k2 hsep hab
  have hgo_a : goTop (solveStateTopF pat 2) (pat a) [a, b] none [allC, pat a b] 0
      = some (1 / 2) := by
    simp [goTop, pruneMain, hk1, hBa, solveStateTopF_singleton]
  have hgo_b : goTop (solveStateTopF pat 2) (pat b) [a, b] (some (1 + 1 / 2))
      [pat b a, allC] 0 = none := by
    simp [goTop, pruneMain, hk2, hBb, solveStateTopF_singleton]
    norm_num
  rw [solveStateTop, show (([a, b] : List ℕ).length + 1) = 3 from rfl,
    solveStateTopF, if_neg (by simp), if_neg (by simp), guessesTop,
    keys_pair_a hsep hab, hgo_a]
  dsimp only
  rw [show ltBest none (1 + 1 / 2) = true from rfl, if_pos rfl]
  rw [guessesTop, keys_pair_b hsep hab, hgo_b]
  rw [guessesTop]
  norm_num

end PairValues

lemma solveTailExt_pair (pat : PatFn) (N a b : ℕ) (hN : N ≠ 0)
    (hsplit : ∀ g, g < N → pat g a ≠ pat g b) :
    solveTailExt pat N [a, b] = 2 := by
  have hrec1 : ∀ x : ℕ, solveTailExtF pat N 2 [x] = 1 := by
    intro x
    rw [solveTailExtF]
    simp
  have hsum : ∀ g ∈ List.range N,
      sumB (solveTailExtF pat N 2) (pat g) [a, b] (keysOf (pat g) [a, b]) = 1 := by
    intro g hg
    have hne : pat g a ≠ pat g b := hsplit g (List.mem_range.1 hg)
    have hne' : ¬pat g b = pat g a := fun h => hne h.symm
    have hkeys : keysOf (pat g) [a, b] = [pat g a, pat g b] := by
      rw [keysOf, show List.map (pat g) [a, b] = [pat g a, pat g b] from rfl]
      exact dedupFirst_pair hne'
    have hba : bucketOf (pat g) [a, b] (pat g a) = [a] := by
      simp [bucketOf, List.filter, hne']
    have hbb : bucketOf (pat g) [a, b] (pat g b) = [b] := by
      simp [bucketOf, List.filter, hne]
    rw [hkeys, sumB_cons, sumB_cons, sumB_nil, hba, hbb, hrec1, hrec1]
    norm_num
  have hfold : ∀ gs : List ℕ,
      (∀ g ∈ gs, sumB (solveTailExtF pat N 2) (pat g) [a, b]
        (keysOf (pat g) [a, b]) = 1) →
      guessesMainNP (solveTailExtF pat N 2) pat [a, b] gs (some 2) = some 2 := by
    intro gs
    induction gs with
    | nil => intro _; rfl
    | cons g gt ih =>
      intro hall
      rw [guessesMainNP, hall g (by simp)]
      rw [if_neg (by norm_num [ltBest])]
      exact ih fun x hx => hall x (by simp [hx])
  obtain ⟨g0, gt, hgs⟩ : ∃ g0 gt, List.range N = g0 :: gt := by
    cases hR : List.range N with
    | nil => exact absurd (List.range_eq_nil.1 hR) hN
    | cons g0 gt => exact ⟨g0, gt, rfl⟩
  have hg0 : g0 ∈ List.range N := by
    rw [hgs]
    exact List.mem_cons_self g0 gt
  rw [solveTailExt, show (([a, b] : List ℕ).length + 1) = 3 from rfl,
    solveTailExtF, if_neg (by simp), if_neg (by simp),
    guessesMain_eq_NP (solveTailExtF_nonneg pat N 2) (List.range N) none,
    hgs, guessesMainNP, hsum g0 hg0,
    if_pos (show ltBest none (1 + 1) = true from rfl)]
  have h2 : (1 : ℚ) + 1 = 2 := by norm_num
  rw [h2, hfold gt fun x hx => hsum x (by rw [hgs]; exact List.mem_cons_of_mem g0 hx)]
  rfl

lemma rootMain_eq_spec {pat : PatFn} {U : List ℕ} {g : ℕ}
    (hsep : SepOn pat U) (hnd : U.Nodup) (hg : g ∈ U) :
    expectedGivenFirstGuess pat g U
      = forcedFirstGuessCostSpec pat (solveStateMain pat) U g := by
  rw [expectedGivenFirstGuess, forcedFirstGuessCostSpec]
  congr 1
  refine congrArg List.sum (List.map_congr_left ?_)
  intro k _
  by_cases hka : k = allC
  · subst hka
    rw [if_pos rfl, bucketOf_allC_eq hsep hnd hg, solveStateMain_singleton]
  · rw [if_neg hka]

lemma rootTail_eq_spec {pat : PatFn} {U : List ℕ} {g : ℕ}
    (hsep : SepOn pat U) (hnd : U.Nodup) (hg : g ∈ U) :
    solveWithFixedRoot pat U g
      = forcedFirstGuessCostSpec pat (solveTailPure pat) U g := by
  rw [solveWithFixedRoot, forcedFirstGuessCostSpec]
  congr 1
  refine congrArg List.sum (List.map_congr_left ?_)
  intro k _
  by_cases hka : k = allC
  · subst hka
    rw [if_pos rfl, bucketOf_allC_eq hsep hnd hg, solveTailPure_singleton]
  · rw [if_neg hka]

lemma rootTop_eq_spec_sub {pat : PatFn} {U : List ℕ} {g : ℕ}
    (hsep : SepOn pat U) (hnd : U.Nodup) (hg : g ∈ U) :
    expectedWithRoot pat U g
      = forcedFirstGuessCostSpec pat (solveStateTop pat) U g
        - 1 / (U.length : ℚ) := by
  obtain ⟨u, v, huv⟩ := List.append_of_mem (allC_mem_keysOf hsep hg)
  have hnodup : (keysOf (pat g) U).Nodup := nodup_dedupFirst _
  rw [huv] at hnodup
  rcases nodup_split_notmem hnodup with ⟨hu, hv⟩
  have hlen1 : (bucketOf (pat g) U allC).length = 1 := by
    rw [bucketOf_allC_eq hsep hnd hg]
    rfl
  rw [expectedWithRoot, forcedFirstGuessCostSpec, huv]
  simp only [List.map_append, List.map_cons, List.sum_append, List.sum_cons,
    if_true, eq_self_iff_true]
  rw [hlen1]
  have hucong : (u.map fun k => if k = allC then (0 : ℚ)
      else ((bucketOf (pat g) U k).length : ℚ) / (U.length : ℚ)
        * solveStateTop pat (bucketOf (pat g) U k))
      = u.map fun k => ((bucketOf (pat g) U k).length : ℚ) / (U.length : ℚ)
        * (if k = allC then 1 else solveStateTop pat (bucketOf (pat g) U k)) := by
    refine List.map_congr_left ?_
    intro k hk
    have hka : k ≠ allC := fun hkc => hu (hkc ▸ hk)
    rw [if_neg hka, if_neg hka]
  have hvcong : (v.map fun k => if k = allC then (0 : ℚ)
      else ((bucketOf (pat g) U k).length : ℚ) / (U.length : ℚ)
        * solveStateTop pat (bucketOf (pat g) U k))
      = v.map fun k => ((bucketOf (pat g) U k).length : ℚ) / (U.length : ℚ)
        * (if k = allC then 1 else solveStateTop pat (bucketOf (pat g) U k)) := by
    refine List.map_congr_left ?_
    intro k hk
    have hka : k ≠ allC := fun hkc => hv (hkc ▸ hk)
    rw [if_neg hka, if_neg hka]
  rw [hucong, hvcong]
  push_cast
  ring

/-- C1 counterexample: on the two-word universe [cigar, rebut] the
`solveState` of `src/main.js` values the full two-element candidate set at 2,
not at 1.5 as the claim asserts for every exact solver, because it recurses
into the all-correct bucket (value 1) instead of crediting that branch as
already solved. -/
theorem c1_two_candidates_counterexample :
    solveStateMain patW [0, 1] = 2 ∧ solveStateMain patW [0, 1] ≠ 3 / 2 := by
  have h := @solveStateMain_pair patW 0 1 (by decide) (by decide)
  refine ⟨h, ?_⟩
  rw [h]
  norm_num

/-- C1 (amended): on every two-element candidate set over a pattern table
that separates the two words, the solvers that credit the all-correct bucket
with cost `p·1` — `solveState` of `src/dp_solver_2.js` and the dp_top200
`solveState` of `src/unnamed/part_001` — return exactly 3/2, while the
variants that recurse into every bucket return 2: `solveState` of
`src/main.js`, `solveTail` of `src/unnamed/part_000`, and the open-pool
`solveTail` of dp_ext in `src/unnamed/part_001` whenever every guess of its
pool `0..N-1` separates the two words — the only case in which the source's
recursion terminates on the pair, since a pool guess with equal feedback on
both words recreates the same candidate set and the memo entry for a key is
written only after the guess loop finishes. -/
theorem c1_two_candidates_values (pat : PatFn) (N a b : ℕ) (hab : a ≠ b)
    (hsep : SepOn pat [a, b]) (hN : N ≠ 0)
    (hsplit : ∀ g, g < N → pat g a ≠ pat g b) :
    solveStateDp2 pat [a, b] = 3 / 2 ∧ solveStateTop pat [a, b] = 3 / 2 ∧
      solveStateMain pat [a, b] = 2 ∧ solveTailPure pat [a, b] = 2 ∧
      solveTailExt pat N [a, b] = 2 :=
  ⟨solveStateDp2_pair hsep hab, solveStateTop_pair hsep hab,
   solveStateMain_pair hsep hab, solveStateMain_pair hsep hab,
   solveTailExt_pair pat N a b hN hsplit⟩

/-- C1 witness: the amended statement instantiated on the index pair (0, 1)
of the two-word universe [cigar, rebut], with the dp_ext pool `0..1`. -/
theorem c1_two_candidates_values_witness :
    (0 : ℕ) ≠ 1 ∧ SepOn patW [0, 1] ∧ (2 : ℕ) ≠ 0 ∧
      (∀ g, g < 2 → patW g 0 ≠ patW g 1) ∧
      (solveStateDp2 patW [0, 1] = 3 / 2 ∧ solveStateTop patW [0, 1] = 3 / 2 ∧
        solveStateMain patW [0, 1] = 2 ∧ solveTailPure patW [0, 1] = 2 ∧
        solveTailExt patW 2 [0, 1] = 2) :=
  ⟨by decide, by decide, by decide, by decide,
   c1_two_candidates_values patW 2 0 1 (by decide) (by decide) (by decide) (by decide)⟩

/-- C2: in every feedback code, for every letter, the number of guess
positions of that letter marked present-elsewhere never exceeds the number of
occurrences of the letter in the secret that were not matched as correct;
this holds for the count-based `pattern` of `src/main.js` and for
`patternFor` of `src/unnamed/part_001`. -/
theorem c2_duplicate_letter_bound (g a : Word) (c : Char)
    (hlen : g.length = a.length) :
    markYellow (List.zip (pattern g a) g) c ≤ countUnmatched g a c ∧
      markYellow (List.zip (patternFor001 g a) g) c ≤ countUnmatched g a c := by
  have hg : (List.zip g a).map Prod.fst = g := List.map_fst_zip g a (le_of_eq hlen)
  have h1 : markYellow (List.zip (pattern g a) g) c ≤ countUnmatched g a c := by
    have h2 := markYellow_le (List.zip g a) (availOf a (usedInit g a)) c
    rw [hg] at h2
    rw [pattern_eq_avail, countUnmatched_eq]
    exact h2
  exact ⟨h1, h1⟩

/-- C2 witness: the guess ALLOW against the secret LLAMA marks exactly one L
as present-elsewhere, within the allowed budget of unmatched L occurrences. -/
theorem c2_duplicate_letter_bound_witness :
    (['a', 'l', 'l', 'o', 'w'] : Word).length
        = (['l', 'l', 'a', 'm', 'a'] : Word).length ∧
      markYellow (List.zip
          (pattern ['a', 'l', 'l', 'o', 'w'] ['l', 'l', 'a', 'm', 'a'])
          ['a', 'l', 'l', 'o', 'w']) 'l'
        ≤ countUnmatched ['a', 'l', 'l', 'o', 'w'] ['l', 'l', 'a', 'm', 'a'] 'l' :=
  ⟨by decide,
   (c2_duplicate_letter_bound ['a', 'l', 'l', 'o', 'w'] ['l', 'l', 'a', 'm', 'a']
     'l' (by decide)).1⟩

/-- C3 counterexample: on the two-word universe [cigar, rebut] with forced
root guess 0, `expectedWithRoot` of the dp_top200 script in
`src/unnamed/part_001` differs from the claimed formula
`1 + Σ p·evaluator(bucket)` with the all-correct bucket contributing `p·1`:
the script skips the all-correct bucket (`continue`), so it contributes 0. -/
theorem c3_root_cost_counterexample :
    expectedWithRoot patW [0, 1] 0
      ≠ forcedFirstGuessCostSpec patW (solveStateTop patW) [0, 1] 0 := by
  have h := @rootTop_eq_spec_sub patW [0, 1] 0 (by decide) (by decide) (by decide)
  rw [h]
  intro heq
  have h2 : (1 : ℚ) / (([0, 1] : List ℕ).length : ℚ) = 0 := by linarith
  norm_num at h2

/-- C3 (amended): the forced-first-guess root cost of
`expectedGivenFirstGuess` (`src/main.js`) and of `solveWithFixedRoot`
(`src/unnamed/part_000`) equals `1 + Σ p·evaluator(bucket)` with the
all-correct bucket contributing exactly `p·1`; `expectedWithRoot` of
`src/unnamed/part_001` instead gives the all-correct bucket contribution 0,
so it is that formula minus `1/|U|`. -/
theorem c3_root_cost_forms (pat : PatFn) (U : List ℕ) (g : ℕ) (hnd : U.Nodup)
    (hg : g ∈ U) (hsep : SepOn pat U) :
    expectedGivenFirstGuess pat g U
        = forcedFirstGuessCostSpec pat (solveStateMain pat) U g ∧
      solveWithFixedRoot pat U g
        = forcedFirstGuessCostSpec pat (solveTailPure pat) U g ∧
      expectedWithRoot pat U g
        = forcedFirstGuessCostSpec pat (solveStateTop pat) U g
          - 1 / (U.length : ℚ) :=
  ⟨rootMain_eq_spec hsep hnd hg, rootTail_eq_spec hsep hnd hg,
   rootTop_eq_spec_sub hsep hnd hg⟩

/-- C3 witness: the amended statement instantiated on the two-word universe
[cigar, rebut] with root guess 0. -/
theorem c3_root_cost_forms_witness :
    ([0, 1] : List ℕ).Nodup ∧ (0 : ℕ) ∈ ([0, 1] : List ℕ) ∧ SepOn patW [0, 1] ∧
      (expectedGivenFirstGuess patW 0 [0, 1]
          = forcedFirstGuessCostSpec patW (solveStateMain patW) [0, 1] 0 ∧
        solveWithFixedRoot patW [0, 1] 0
          = forcedFirstGuessCostSpec patW (solveTailPure patW) [0, 1] 0 ∧
        expectedWithRoot patW [0, 1] 0
          = forcedFirstGuessCostSpec patW (solveStateTop patW) [0, 1] 0
            - 1 / (([0, 1] : List ℕ).length : ℚ)) :=
  ⟨by decide, by decide, by decide,
   c3_root_cost_forms patW [0, 1] 0 (by decide) (by decide) (by decide)⟩

/-- C4: branch-and-bound pruning never changes the computed optimum: for
every pattern table, fuel and candidate list, the pruned `solveState` of
`src/main.js` and of `src/dp_solver_2.js` return exactly the value of the
corresponding unpruned solver that always sums every bucket, because every
bucket contributes a non-negative amount. -/
theorem c4_pruning_preserves_value (pat : PatFn) (fuel : ℕ) (S : List ℕ) :
    solveStateMainF pat fuel S = solveStateMainNPF pat fuel S ∧
      solveStateDp2F pat fuel S = solveStateDp2NPF pat fuel S :=
  ⟨solveStateMainF_eq_NPF pat fuel S, solveStateDp2F_eq_NPF pat fuel S⟩

/-- C5: the bounded memo cache of `src/unnamed/part_000` is transparent: for
every capacity, eviction count, sufficient fuel and starting memo whose
entries are correct, the memoized `solveTail` returns exactly the memoless
value, and it leaves the memo correct; capacity and eviction affect only how
much is recomputed. -/
theorem c5_memo_transparent (pat : PatFn) (cap toRem fuel : ℕ) (S : List ℕ)
    (m : Memo) (hnd : S.Nodup) (hsep : SepOn pat S) (hf : S.length ≤ fuel)
    (hm : MemoOK pat m) :
    (solveTailMemoF pat cap toRem fuel S m).1 = solveTailPure pat S ∧
      MemoOK pat (solveTailMemoF pat cap toRem fuel S m).2 :=
  solveTailMemoF_correct pat cap toRem fuel S m hnd hsep hf hm

/-- C5 witness: a capacity-1 memo with the source's eviction rule (10% of
capacity, at least one entry) still returns the memoless value on the
two-word universe. -/
theorem c5_memo_transparent_witness :
    ([0, 1] : List ℕ).Nodup ∧ SepOn patW [0, 1] ∧
      ([0, 1] : List ℕ).length ≤ 2 ∧ MemoOK patW [] ∧
      (solveTailMemoF patW 1 (evictCount 1 (1 / 10)) 2 [0, 1] []).1
        = solveTailPure patW [0, 1] :=
  ⟨by decide, by decide, by decide, memoOK_nil patW,
   (c5_memo_transparent patW 1 (evictCount 1 (1 / 10)) 2 [0, 1] []
     (by decide) (by decide) (by decide) (memoOK_nil patW)).1⟩

/-- C6: for every key function and candidate list, the buckets of the
partition are pairwise disjoint across distinct keys, every element lands
exactly in the bucket keyed by its own code, every bucket of an occurring key
is non-empty, and the bucket sizes sum to the size of the list. -/
theorem c6_partition_properties {α κ : Type} [DecidableEq κ] (f : α → κ)
    (S : List α) :
    (∀ k1 ∈ keysOf f S, ∀ k2 ∈ keysOf f S, k1 ≠ k2 →
      ∀ x ∈ bucketOf f S k1, x ∉ bucketOf f S k2) ∧
    (∀ x ∈ S, x ∈ bucketOf f S (f x) ∧ ∀ k, x ∈ bucketOf f S k → k = f x) ∧
    (∀ k ∈ keysOf f S, bucketOf f S k ≠ []) ∧
    ((keysOf f S).map fun k => (bucketOf f S k).length).sum = S.length := by
  refine ⟨?_, ?_, ?_, sum_bucket_lengths f S⟩
  · intro k1 _ k2 _ hne x hx1 hx2
    rcases mem_bucketOf.1 hx1 with ⟨_, h1⟩
    rcases mem_bucketOf.1 hx2 with ⟨_, h2⟩
    exact hne (by rw [← h1, ← h2])
  · intro x hx
    exact ⟨mem_bucketOf.2 ⟨hx, rfl⟩, fun k hk => ((mem_bucketOf.1 hk).2).symm⟩
  · intro k hk
    exact bucketOf_ne_nil hk

/-- C6 witness: the partition of the two-word list [cigar, rebut] under
guess cigar, with the real feedback function as key function. -/
theorem c6_partition_properties_witness :
    (w0 ∈ bucketOf (pattern w0) [w0, w1] (pattern w0 w0) ∧
      ∀ k, w0 ∈ bucketOf (pattern w0) [w0, w1] k → k = pattern w0 w0) ∧
      bucketOf (pattern w0) [w0, w1] (pattern w0 w1) ≠ [] ∧
      ((keysOf (pattern w0) [w0, w1]).map fun k =>
        (bucketOf (pattern w0) [w0, w1] k).length).sum
        = ([w0, w1] : List Word).length :=
  ⟨(c6_partition_properties (pattern w0) [w0, w1]).2.1 w0 (by decide),
   (c6_partition_properties (pattern w0) [w0, w1]).2.2.1 (pattern w0 w1) (by decide),
   (c6_partition_properties (pattern w0) [w0, w1]).2.2.2⟩

/-- C7 counterexample: the exact solvers do not fail fast on an empty
candidate set; they return the ordinary value 0 (below the documented
`expectedSteps ≥ 1` range) as a normal result. -/
theorem c7_empty_candidate_counterexample :
    solveStateMain patW [] = 0 ∧ solveStateDp2 patW [] = 0 ∧
      solveTailPure patW [] = 0 :=
  ⟨rfl, rfl, rfl⟩

/-- C7 (amended): for every pattern table, calling the exact solvers of
`src/main.js`, `src/dp_solver_2.js` and `src/unnamed/part_000` with an empty
candidate set returns the degenerate value 0 (the `len <= 0` branch that the
sources label "degenerate / unreachable"), not a failure. -/
theorem c7_empty_candidate_returns_zero (pat : PatFn) :
    solveStateMain pat [] = 0 ∧ solveStateDp2 pat [] = 0 ∧
      solveTailPure pat [] = 0 ∧
      ∀ (cap toRem fuel : ℕ) (m : Memo),
        (solveTailMemoF pat cap toRem (fuel + 1) [] m).1 = 0 := by
  refine ⟨rfl, rfl, rfl, ?_⟩
  intro cap toRem fuel m
  rw [solveTailMemoF]
  simp

/-- C8: for every separating pattern table and non-empty duplicate-free
candidate set, the exact solvers of `src/main.js` and `src/dp_solver_2.js`
satisfy the invariants: the value is 1 exactly when the set is a singleton,
exceeds 1 whenever the set has more than one element, and never exceeds the
set size. -/
theorem c8_expected_steps_bounds (pat : PatFn) (S : List ℕ) (hne : S ≠ [])
    (hnd : S.Nodup) (hsep : SepOn pat S) :
    ((solveStateMain pat S = 1 ↔ S.length = 1) ∧
      (1 < S.length → 1 < solveStateMain pat S) ∧
      solveStateMain pat S ≤ (S.length : ℚ)) ∧
    ((solveStateDp2 pat S = 1 ↔ S.length = 1) ∧
      (1 < S.length → 1 < solveStateDp2 pat S) ∧
      solveStateDp2 pat S ≤ (S.length : ℚ)) := by
  have h1 : 1 ≤ S.length := List.length_pos.2 hne
  have hm : 1 ≤ solveStateMain pat S ∧ solveStateMain pat S ≤ (S.length : ℚ) ∧
      (2 ≤ S.length → 2 ≤ solveStateMain pat S) :=
    solveStateMainF_bounds pat (S.length + 1) S hnd hsep h1 (by omega)
  have hd : 1 ≤ solveStateDp2 pat S ∧ solveStateDp2 pat S ≤ (S.length : ℚ) ∧
      (2 ≤ S.length → 1 < solveStateDp2 pat S) :=
    solveStateDp2F_bounds pat (S.length + 1) S hnd hsep h1 (by omega)
  have hsing : S.length = 1 → solveStateMain pat S = 1 ∧ solveStateDp2 pat S = 1 := by
    intro hlen
    obtain ⟨x, hx⟩ := List.length_eq_one.1 hlen
    subst hx
    constructor
    · rw [solveStateMain, solveStateMainF]
      simp
    · rw [solveStateDp2, solveStateDp2F]
      simp
  constructor
  · refine ⟨⟨?_, fun h => (hsing h).1⟩, ?_, hm.2.1⟩
    · intro hE
      by_contra hlen
      have h2 : 2 ≤ S.length := by omega
      have := hm.2.2 h2
      rw [hE] at this
      norm_num at this
    · intro h2
      have := hm.2.2 (by omega)
      linarith
  · refine ⟨⟨?_, fun h => (hsing h).2⟩, ?_, hd.2.1⟩
    · intro hE
      by_contra hlen
      have h2 : 2 ≤ S.length := by omega
      have := hd.2.2 (by omega)
      rw [hE] at this
      norm_num at this
    · intro h2
      exact hd.2.2 (by omega)

/-- C8 witness: the invariants instantiated on the index pair (0, 1) of the
two-word universe [cigar, rebut]. -/
theorem c8_expected_steps_bounds_witness :
    ([0, 1] : List ℕ) ≠ [] ∧ ([0, 1] : List ℕ).Nodup ∧ SepOn patW [0, 1] ∧
      (((solveStateMain patW [0, 1] = 1 ↔ ([0, 1] : List ℕ).length = 1) ∧
        (1 < ([0, 1] : List ℕ).length → 1 < solveStateMain patW [0, 1]) ∧
        solveStateMain patW [0, 1] ≤ (([0, 1] : List ℕ).length : ℚ)) ∧
      ((solveStateDp2 patW [0, 1] = 1 ↔ ([0, 1] : List ℕ).length = 1) ∧
        (1 < ([0, 1] : List ℕ).length → 1 < solveStateDp2 patW [0, 1]) ∧
        solveStateDp2 patW [0, 1] ≤ (([0, 1] : List ℕ).length : ℚ))) :=
  ⟨by decide, by decide, by decide,
   c8_expected_steps_bounds patW [0, 1] (by decide) (by decide) (by decide)⟩

/-- C9: every feedback-computation implementation of the repository — the
count-based two-pass versions (`pattern` in `src/main.js`, `patternFor` in
`src/unnamed/part_001`) and the used-array two-pass versions (`patternOf` in
`src/dp_solver_2.js`, `patternFor` in `src/unnamed/part_000`) — computes the
same feedback code on every pair of words, so all are pairwise equal. -/
theorem c9_feedback_implementations_agree (g a : Word) :
    pattern g a = patternOf g a ∧ patternOf g a = patternFor000 g a ∧
      patternFor001 g a = pattern g a :=
  ⟨pattern_eq_patternOf g a, rfl, rfl⟩

/-- C10: for 5-letter words, the feedback code is the all-correct code 22222
exactly when guess and secret coincide; consequently, when a guess belongs to
a duplicate-free candidate list, the all-correct bucket of the partition is
exactly the singleton of that guess. -/
theorem c10_allcorrect_iff_equal :
    (∀ g a : Word, g.length = 5 → a.length = 5 →
      (pattern g a = allC ↔ g = a)) ∧
    ∀ (S : List Word) (g : Word), S.Nodup → g ∈ S → g.length = 5 →
      (∀ w ∈ S, w.length = 5) → bucketOf (pattern g) S allC = [g] := by
  have hiff : ∀ g a : Word, g.length = 5 → a.length = 5 →
      (pattern g a = allC ↔ g = a) := by
    intro g a hga haa
    have hall : allC = List.replicate a.length '2' := by
      rw [haa]
      rfl
    rw [hall]
    exact pattern_all2_iff (by omega)
  refine ⟨hiff, ?_⟩
  intro S g hnd hg hglen hall
  refine filter_eq_single hnd hg ?_
  intro x hx
  simp only [decide_eq_true_eq]
  rw [hiff g x hglen (hall x hx)]
  exact eq_comm

/-- C10 witness: instantiated on the concrete words cigar and rebut. -/
theorem c10_allcorrect_iff_equal_witness :
    ((pattern w0 w0 = allC ↔ w0 = w0) ∧ (pattern w0 w1 = allC ↔ w0 = w1)) ∧
      bucketOf (pattern w0) [w0, w1] allC = [w0] :=
  ⟨⟨c10_allcorrect_iff_equal.1 w0 w0 (by decide) (by decide),
    c10_allcorrect_iff_equal.1 w0 w1 (by decide) (by decide)⟩,
   c10_allcorrect_iff_equal.2 [w0, w1] w0 (by decide) (by decide) (by decide)
     (by decide)⟩

end WordleLab
